import Mathlib

/-!
Verification of the Match_cut frame-synthesis and text-supply pipeline.

The definitions below are shallow embeddings of the Python modules
`modules/video_generator.py`, `modules/image_processing.py`,
`modules/textures.py`, `modules/text_generation.py` and
`modules/ai_providers.py`.  Python strings are modelled as `List Char`,
Python floats arising from font metrics as `ℚ`, Python `int()` as
truncating division, and the global random source as an explicit stream
`ℕ → ℕ` consumed left to right.
-/

namespace MatchCut

/-! ## Snippet pool (generate_video, modules/video_generator.py lines 107-178)

One entry of `text_pool` is a dict `{"lines": lines, "highlight_index": hl}`;
the provider result `(None, -1)` on failure is modelled as `none`. -/

structure PoolSnippet where
  lines : List (List Char)
  hlIndex : ℤ
deriving DecidableEq, Repr

structure PoolState where
  pool : List PoolSnippet
  curIndex : ℕ
  counter : ℕ
  calls : ℕ
deriving DecidableEq, Repr

def initPoolState : PoolState := ⟨[], 0, 0, 0⟩

/-- `frames_with_current_text >= FRAMES_PER_SNIPPET or not text_pool`. -/
def needNew (f : ℕ) (st : PoolState) : Bool :=
  f ≤ st.counter || st.pool.isEmpty

/-- The growth half of grow-or-rotate: generate a new snippet when
`len(text_pool) < TEXT_POOL_SIZE`, appending it only when `lines` is truthy
and `hl_index != -1`. -/
def growStep (p : ℕ) (provider : ℕ → Option PoolSnippet) (st : PoolState) :
    PoolState :=
  if st.pool.length < p then
    match provider st.calls with
    | some s =>
        if s.lines ≠ [] ∧ s.hlIndex ≠ -1 then
          { st with pool := st.pool ++ [s], calls := st.calls + 1 }
        else { st with calls := st.calls + 1 }
    | none => { st with calls := st.calls + 1 }
  else st

/-- The grow-or-rotate block guarded by `needNew`: grow, then advance the
rotation cursor circularly and reset the usage counter, or fail when the
pool is still empty. -/
def growRotate (p : ℕ) (provider : ℕ → Option PoolSnippet) (st : PoolState) :
    Except (List Char) PoolState :=
  let st₁ := growStep p provider st
  if st₁.pool.isEmpty then
    .error ("Failed to generate valid text content.".toList)
  else
    .ok { st₁ with curIndex := (st.curIndex + 1) % st₁.pool.length, counter := 0 }

/-- One iteration of the frame loop restricted to its text-supply effect:
grow-or-rotate when needed, then read `text_pool[current_pool_index]`
(a Python `IndexError` is modelled as an explicit error) and increment
`frames_with_current_text`. -/
def poolTick (f p : ℕ) (provider : ℕ → Option PoolSnippet) (st : PoolState) :
    Except (List Char) (PoolSnippet × PoolState) := do
  let st' ← if needNew f st then growRotate p provider st else .ok st
  match st'.pool.get? st'.curIndex with
  | some cur => .ok (cur, { st' with counter := st'.counter + 1 })
  | none => .error ("IndexError".toList)

/-- State after `k` iterations of the loop. -/
def runPool (f p : ℕ) (provider : ℕ → Option PoolSnippet) : ℕ →
    Except (List Char) PoolState
  | 0 => .ok initPoolState
  | k + 1 => do
      let st ← runPool f p provider k
      let r ← poolTick f p provider st
      .ok r.2

/-- Snippet handed to the compositor at frame `i` (0-based). -/
def snippetAtFrame (f p : ℕ) (provider : ℕ → Option PoolSnippet) (i : ℕ) :
    Except (List Char) PoolSnippet := do
  let st ← runPool f p provider i
  let r ← poolTick f p provider st
  .ok r.1

/-- `total_frames = int(fps * duration_seconds)` (video_generator.py line 58). -/
def totalFrames (fps duration : ℕ) : ℕ := fps * duration

/-- A provider call that always succeeds with a well-formed snippet. -/
def okProvider (s : PoolSnippet) : ℕ → Option PoolSnippet := fun _ => some s

def sampleSnippet : PoolSnippet := ⟨[['a']], 0⟩

/-- `ceil (k / f)` on naturals. -/
def ceilDiv (k f : ℕ) : ℕ := (k + f - 1) / f


lemma ceilDiv_succ_of_dvd {k f : ℕ} (hf : 1 ≤ f) (hmod : k % f = 0) :
    ceilDiv (k + 1) f = ceilDiv k f + 1 := by
  obtain ⟨q, rfl⟩ : ∃ q, k = f * q := ⟨k / f, by
    have := Nat.div_add_mod k f; omega⟩
  unfold ceilDiv
  have h1 : f * q + 1 + f - 1 = f * q + f := by omega
  have h2 : f * q + f - 1 = f * q + (f - 1) := by omega
  rw [h1, h2, Nat.mul_add_div (show 0 < f by omega), Nat.mul_add_div
    (show 0 < f by omega), Nat.div_self (show 0 < f by omega),
    Nat.div_eq_of_lt (show f - 1 < f by omega)]

lemma ceilDiv_succ_of_not_dvd {k f : ℕ} (hf : 1 ≤ f) (hmod : k % f ≠ 0) :
    ceilDiv (k + 1) f = ceilDiv k f := by
  obtain ⟨q, r, hr, rfl⟩ : ∃ q r, r < f ∧ k = f * q + r :=
    ⟨k / f, k % f, Nat.mod_lt _ (by omega), by have := Nat.div_add_mod k f; omega⟩
  have hr1 : 1 ≤ r := by
    rcases Nat.eq_zero_or_pos r with h | h
    · exfalso; apply hmod; simp [h, Nat.mul_mod_right]
    · exact h
  unfold ceilDiv
  have h1 : f * q + r + 1 + f - 1 = f * (q + 1) + r := by
    rw [Nat.mul_succ]; omega
  have h2 : f * q + r + f - 1 = f * (q + 1) + (r - 1) := by
    rw [Nat.mul_succ]; omega
  rw [h1, h2, Nat.mul_add_div (show 0 < f by omega), Nat.mul_add_div
    (show 0 < f by omega), Nat.div_eq_of_lt (show r < f by omega),
    Nat.div_eq_of_lt (show r - 1 < f by omega)]

lemma mod_succ_pred {k f : ℕ} (hf : 1 ≤ f) (hk : 1 ≤ k) :
    (k - 1) % f + 1 = (if k % f = 0 then f else k % f) := by
  obtain ⟨a, rfl⟩ : ∃ a, k = a + 1 := ⟨k - 1, by omega⟩
  simp only [Nat.add_sub_cancel]
  have ha : a % f < f := Nat.mod_lt _ (by omega)
  have hsplit : (a + 1) % f = (a % f + 1) % f := by
    conv_lhs => rw [← Nat.div_add_mod a f]
    rw [Nat.add_assoc, Nat.mul_add_mod]
  rcases Nat.lt_or_ge (a % f + 1) f with h | h
  · rw [hsplit, Nat.mod_eq_of_lt h, if_neg (by omega)]
  · have hfa : a % f + 1 = f := by omega
    rw [hsplit, hfa, Nat.mod_self, if_pos rfl]

lemma growStep_grow {p : ℕ} {provider : ℕ → Option PoolSnippet} {st : PoolState}
    {s : PoolSnippet} (hlt : st.pool.length < p) (hs : provider st.calls = some s)
    (hsl : s.lines ≠ []) (hsh : s.hlIndex ≠ -1) :
    growStep p provider st =
      { st with pool := st.pool ++ [s], calls := st.calls + 1 } := by
  unfold growStep
  rw [if_pos hlt, hs]
  exact if_pos ⟨hsl, hsh⟩

lemma growStep_full {p : ℕ} {provider : ℕ → Option PoolSnippet} {st : PoolState}
    (hge : ¬ st.pool.length < p) : growStep p provider st = st := by
  unfold growStep
  rw [if_neg hge]

lemma growRotate_ok {p : ℕ} {provider : ℕ → Option PoolSnippet}
    {st st₁ : PoolState} (h : growStep p provider st = st₁)
    (hne : st₁.pool ≠ []) :
    growRotate p provider st =
      .ok { st₁ with curIndex := (st.curIndex + 1) % st₁.pool.length, counter := 0 } := by
  unfold growRotate
  rw [h, if_neg (by simpa using hne)]

lemma poolTick_no_rotate {f p : ℕ} {provider : ℕ → Option PoolSnippet}
    {st : PoolState} (hneed : needNew f st = false)
    (hcur : st.curIndex < st.pool.length) :
    poolTick f p provider st =
      .ok (st.pool.get ⟨st.curIndex, hcur⟩,
        { st with counter := st.counter + 1 }) := by
  unfold poolTick
  rw [hneed]
  simp only [Bool.false_eq_true, if_false, bind, Except.bind]
  rw [List.get?_eq_get hcur]

lemma poolTick_rotate {f p : ℕ} {provider : ℕ → Option PoolSnippet}
    {st st' : PoolState} (hneed : needNew f st = true)
    (hgr : growRotate p provider st = .ok st')
    (hcur : st'.curIndex < st'.pool.length) :
    poolTick f p provider st =
      .ok (st'.pool.get ⟨st'.curIndex, hcur⟩,
        { st' with counter := st'.counter + 1 }) := by
  unfold poolTick
  rw [hneed]
  simp only [if_true, bind, Except.bind, hgr]
  rw [List.get?_eq_get hcur]

lemma runPool_succ_eq {f p : ℕ} {provider : ℕ → Option PoolSnippet} {k : ℕ}
    {st : PoolState} {c : PoolSnippet} {st' : PoolState}
    (h : runPool f p provider k = .ok st)
    (ht : poolTick f p provider st = .ok (c, st')) :
    runPool f p provider (k + 1) = .ok st' := by
  simp only [runPool, h, ht, bind, Except.bind]

/-- Effect of a tick that rotates after successfully growing the pool. -/
lemma poolTick_rotate_grow {f p : ℕ} {provider : ℕ → Option PoolSnippet}
    {st : PoolState} {s : PoolSnippet} (hneed : needNew f st = true)
    (hlt : st.pool.length < p) (hs : provider st.calls = some s)
    (hsl : s.lines ≠ []) (hsh : s.hlIndex ≠ -1) :
    ∃ c, poolTick f p provider st =
      .ok (c, ⟨st.pool ++ [s], (st.curIndex + 1) % (st.pool.length + 1), 1,
        st.calls + 1⟩) := by
  have hgs := growStep_grow hlt hs hsl hsh
  have hgr := growRotate_ok hgs (by simp)
  have hcur : ((st.curIndex + 1) % (st.pool.length + 1)) <
      st.pool.length + 1 := Nat.mod_lt _ (by omega)
  unfold poolTick
  rw [hneed]
  simp only [if_true, bind, Except.bind, hgr]
  simp only [List.length_append, List.length_cons, List.length_nil,
    Nat.zero_add]
  rw [List.get?_eq_get (by simpa using hcur)]
  exact ⟨_, rfl⟩

/-- Effect of a tick that rotates over a pool already at capacity. -/
lemma poolTick_rotate_full {f p : ℕ} {provider : ℕ → Option PoolSnippet}
    {st : PoolState} (hneed : needNew f st = true)
    (hge : ¬ st.pool.length < p) (hne : st.pool ≠ []) :
    ∃ c, poolTick f p provider st =
      .ok (c, ⟨st.pool, (st.curIndex + 1) % st.pool.length, 1, st.calls⟩) := by
  have hgs := @growStep_full p provider st hge
  have hgr := growRotate_ok hgs hne
  have hcur : ((st.curIndex + 1) % st.pool.length) < st.pool.length :=
    Nat.mod_lt _ (by
      rcases Nat.eq_zero_or_pos st.pool.length with h | h
      · exact absurd (List.length_eq_zero.mp h) hne
      · exact h)
  unfold poolTick
  rw [hneed]
  simp only [if_true, bind, Except.bind, hgr]
  rw [List.get?_eq_get (by simpa using hcur)]
  exact ⟨_, rfl⟩

/-- Effect of a tick that reuses the current snippet without rotating. -/
lemma poolTick_reuse {f p : ℕ} {provider : ℕ → Option PoolSnippet}
    {st : PoolState} (hneed : needNew f st = false)
    (hcur : st.curIndex < st.pool.length) :
    ∃ c, poolTick f p provider st =
      .ok (c, ⟨st.pool, st.curIndex, st.counter + 1, st.calls⟩) := by
  have h := @poolTick_no_rotate f p provider st hneed hcur
  exact ⟨_, h⟩

/-- Invariant of the generation loop under an always-successful provider:
after `k` iterations the run has not failed, the pool holds exactly
`min poolSize (ceil (k / framesPerSnippet))` snippets, the rotation cursor
is in range, and the usage counter tracks `k` modulo `framesPerSnippet`. -/
lemma runPool_spec (f p : ℕ) (hf : 1 ≤ f) (hp : 1 ≤ p)
    (provider : ℕ → Option PoolSnippet)
    (hprov : ∀ n, ∃ s, provider n = some s ∧ s.lines ≠ [] ∧ s.hlIndex ≠ -1) :
    ∀ k, ∃ st, runPool f p provider k = .ok st ∧
      st.pool.length = min p (ceilDiv k f) ∧
      (k = 0 → st = initPoolState) ∧
      (1 ≤ k → st.curIndex < st.pool.length ∧ st.counter = (k - 1) % f + 1) := by
  have hmodpred : ∀ k : ℕ, k % f = 0 → (k + 1 - 1) % f + 1 = 1 := by
    intro k hmod
    simp only [Nat.add_sub_cancel]
    omega
  intro k
  induction k with
  | zero =>
      refine ⟨initPoolState, rfl, ?_, fun _ => rfl, by omega⟩
      have h0 : ceilDiv 0 f = 0 := by
        unfold ceilDiv
        rw [Nat.zero_add, Nat.div_eq_of_lt (by omega)]
      simp [initPoolState, h0]
  | succ k ih =>
      obtain ⟨st, hrun, hlen, hzero, hpos⟩ := ih
      rcases Nat.eq_zero_or_pos k with hk0 | hk1
      · -- first iteration: the pool is empty, grow-or-rotate fires
        subst hk0
        have hst : st = initPoolState := hzero rfl
        subst hst
        obtain ⟨s, hs, hsl, hsh⟩ := hprov 0
        have hneed : needNew f initPoolState = true := by
          simp [needNew, initPoolState]
        obtain ⟨c, htick⟩ := poolTick_rotate_grow (p := p) hneed
          (by simpa [initPoolState] using hp)
          (show provider initPoolState.calls = some s from hs) hsl hsh
        refine ⟨_, runPool_succ_eq hrun htick, ?_, by omega, ?_⟩
        · have h1 : ceilDiv 1 f = 1 := by
            unfold ceilDiv
            have he : 1 + f - 1 = f := by omega
            rw [he, Nat.div_self (by omega)]
          simp [initPoolState, h1, hp]
        · intro _
          exact ⟨by simp [initPoolState, Nat.mod_self], rfl⟩
      · -- later iterations: the pool already holds at least one snippet
        obtain ⟨hcur, hcounter⟩ := hpos hk1
        have hlen1 : 1 ≤ st.pool.length := by
          have h1 : 1 ≤ ceilDiv k f := by
            unfold ceilDiv
            rw [Nat.le_div_iff_mul_le (by omega)]
            omega
          omega
        by_cases hmod : k % f = 0
        · -- counter reached framesPerSnippet: grow-or-rotate
          have hcf : f ≤ st.counter := by
            rw [hcounter, mod_succ_pred hf hk1, if_pos hmod]
          have hneed : needNew f st = true := by
            simp [needNew]
            omega
          by_cases hlt : st.pool.length < p
          · obtain ⟨s, hs, hsl, hsh⟩ := hprov st.calls
            obtain ⟨c, htick⟩ := poolTick_rotate_grow hneed hlt hs hsl hsh
            refine ⟨_, runPool_succ_eq hrun htick, ?_, by omega, ?_⟩
            · simp only [List.length_append, List.length_cons, List.length_nil,
                Nat.zero_add]
              rw [ceilDiv_succ_of_dvd hf hmod]
              omega
            · intro _
              refine ⟨?_, (hmodpred k hmod).symm ▸ rfl⟩
              simpa using Nat.mod_lt (st.curIndex + 1)
                (show 0 < st.pool.length + 1 by omega)
          · obtain ⟨c, htick⟩ := poolTick_rotate_full hneed hlt
              (by intro h; rw [h] at hlen1; simp at hlen1)
            refine ⟨_, runPool_succ_eq hrun htick, ?_, by omega, ?_⟩
            · simp only []
              rw [ceilDiv_succ_of_dvd hf hmod]
              omega
            · intro _
              refine ⟨?_, (hmodpred k hmod).symm ▸ rfl⟩
              simpa using Nat.mod_lt (st.curIndex + 1)
                (show 0 < st.pool.length by omega)
        · -- plain reuse of the current snippet
          have hclt : st.counter < f := by
            rw [hcounter, mod_succ_pred hf hk1, if_neg hmod]
            have := Nat.mod_lt k (show 0 < f by omega)
            omega
          have hneed : needNew f st = false := by
            simp [needNew, List.isEmpty_iff]
            constructor
            · omega
            · intro h
              rw [h] at hlen1
              simp at hlen1
          obtain ⟨c, htick⟩ := @poolTick_reuse f p provider _
            hneed hcur
          refine ⟨_, runPool_succ_eq hrun htick, ?_, by omega, ?_⟩
          · simp only []
            rw [ceilDiv_succ_of_not_dvd hf hmod]
            exact hlen
          · intro _
            refine ⟨hcur, ?_⟩
            have hc : st.counter = k % f := by
              rw [hcounter, mod_succ_pred hf hk1, if_neg hmod]
            simp only [Nat.add_sub_cancel]
            rw [hc]

/-- C3: for every pool configuration, assuming every text-generation request
succeeds, after `k` frames the number of distinct snippets created and
appended to the pool equals `min(poolSize, ceil(k / framesPerSnippet))`. -/
theorem c3_snippet_pool_growth (f p : ℕ) (hf : 1 ≤ f) (hp : 1 ≤ p)
    (provider : ℕ → Option PoolSnippet)
    (hprov : ∀ n, ∃ s, provider n = some s ∧ s.lines ≠ [] ∧ s.hlIndex ≠ -1)
    (k : ℕ) :
    ∃ st, runPool f p provider k = .ok st ∧
      st.pool.length = min p (ceilDiv k f) := by
  obtain ⟨st, h1, h2, _, _⟩ := runPool_spec f p hf hp provider hprov k
  exact ⟨st, h1, h2⟩

theorem c3_snippet_pool_growth_witness :
    ∃ st, runPool 3 10 (okProvider sampleSnippet) 7 = .ok st ∧
      st.pool.length = min 10 (ceilDiv 7 3) :=
  c3_snippet_pool_growth 3 10 (by decide) (by decide) (okProvider sampleSnippet)
    (fun _ => ⟨sampleSnippet, rfl, by decide, by decide⟩) 7

instance {ε α : Type} [DecidableEq ε] [DecidableEq α] :
    DecidableEq (Except ε α) := fun
  | .error e, .error f => decidable_of_iff (e = f) (by simp)
  | .error _, .ok _ => isFalse (by simp)
  | .ok _, .error _ => isFalse (by simp)
  | .ok a, .ok b => decidable_of_iff (a = b) (by simp)

/-- Provider whose `n`-th successful snippet is tagged with `n`, making the
creation order of pool entries observable. -/
def taggedProvider : ℕ → Option PoolSnippet := fun n => some ⟨[['a']], n⟩

/-- C4: with fps=10 and duration=5 the loop requests exactly
`int(fps*duration) = 50` frames, and with framesPerSnippet=3, poolSize=10
frame `i` uses the snippet created `(i / 3) mod 10`-th, i.e. frames 0-2 use
snippet 0, frames 3-5 use snippet 1, and so on until the pool is full and
rotation wraps around. -/
theorem c4_frame_grouping :
    totalFrames 10 5 = 50 ∧
      ∀ i ∈ List.range 50,
        snippetAtFrame 3 10 taggedProvider i = .ok ⟨[['a']], ((i / 3) % 10 : ℕ)⟩ := by
  decide

/-- A text-generation request whose outcome the loop discards: either the
call produced nothing, or the produced pair fails the
`if lines and hl_index != -1` guard. -/
def providerFails (provider : ℕ → Option PoolSnippet) (n : ℕ) : Prop :=
  ∀ s, provider n = some s → (s.lines = [] ∨ s.hlIndex = -1)

lemma growStep_of_fails {p : ℕ} {provider : ℕ → Option PoolSnippet}
    {st : PoolState} (hfail : providerFails provider st.calls) :
    (growStep p provider st).pool = st.pool ∧
    (growStep p provider st).curIndex = st.curIndex := by
  unfold growStep
  by_cases h : st.pool.length < p
  · rw [if_pos h]
    cases hs : provider st.calls with
    | none => exact ⟨rfl, rfl⟩
    | some s =>
        have hv : ¬ (s.lines ≠ [] ∧ s.hlIndex ≠ -1) := by
          rcases hfail s hs with h1 | h1
          · intro hc; exact hc.1 h1
          · intro hc; exact hc.2 h1
        simp [if_neg hv]
  · rw [if_neg h]
    exact ⟨rfl, rfl⟩

/-- C7: a failing text-generation request aborts the run with the
"no valid text content" error exactly when the pool is empty; with a
non-empty pool the tick always succeeds and rotation proceeds over the
existing snippets. -/
theorem c7_generation_failure_policy (f p : ℕ)
    (provider : ℕ → Option PoolSnippet) (st : PoolState) :
    (st.pool = [] → providerFails provider st.calls →
      poolTick f p provider st =
        .error ("Failed to generate valid text content.".toList)) ∧
    (st.pool ≠ [] → st.curIndex < st.pool.length →
      providerFails provider st.calls →
      ∃ c st', poolTick f p provider st = .ok (c, st') ∧
        st'.pool = st.pool) := by
  constructor
  · intro hempty hfail
    have hneed : needNew f st = true := by
      simp [needNew, hempty]
    obtain ⟨hp1, _⟩ := growStep_of_fails (p := p) hfail
    have hgr : growRotate p provider st =
        .error ("Failed to generate valid text content.".toList) := by
      unfold growRotate
      rw [if_pos (by simp [hp1, hempty])]
    unfold poolTick
    rw [hneed]
    simp only [if_true, bind, Except.bind, hgr]
  · intro hne hcur hfail
    by_cases hneed : needNew f st = true
    · obtain ⟨hp1, hc1⟩ := growStep_of_fails (p := p) hfail
      have hlen : 0 < st.pool.length := List.length_pos.mpr hne
      have hgr := @growRotate_ok p provider st _ rfl
        (by rw [hp1]; exact hne)
      have hcur2 : ((st.curIndex + 1) % (growStep p provider st).pool.length) <
          (growStep p provider st).pool.length := by
        rw [hp1]; exact Nat.mod_lt _ hlen
      have htick := poolTick_rotate hneed hgr (by simpa using hcur2)
      exact ⟨_, _, htick, by simpa using hp1⟩
    · have hneed' : needNew f st = false := by
        cases h : needNew f st
        · rfl
        · exact absurd h hneed
      obtain ⟨c, htick⟩ := @poolTick_reuse f p provider _
        hneed' hcur
      exact ⟨c, _, htick, rfl⟩

theorem c7_generation_failure_policy_witness :
    (initPoolState.pool = [] →
      providerFails (fun _ => none) initPoolState.calls →
      poolTick 3 10 (fun _ => none) initPoolState =
        .error ("Failed to generate valid text content.".toList)) ∧
    (initPoolState.pool ≠ [] → initPoolState.curIndex <
        initPoolState.pool.length →
      providerFails (fun _ => none) initPoolState.calls →
      ∃ c st', poolTick 3 10 (fun _ => none) initPoolState = .ok (c, st') ∧
        st'.pool = initPoolState.pool) :=
  c7_generation_failure_policy 3 10 (fun _ => none) initPoolState

/-- The two index invariants of claim C10: an in-range rotation cursor
whenever the pool is non-empty, and an in-range highlight index for every
stored snippet. -/
def PoolInv (st : PoolState) : Prop :=
  (st.pool ≠ [] → st.curIndex < st.pool.length) ∧
  ∀ s ∈ st.pool, 0 ≤ s.hlIndex ∧ s.hlIndex < s.lines.length

lemma growStep_pool_cases (p : ℕ) (provider : ℕ → Option PoolSnippet)
    (st : PoolState) :
    (growStep p provider st).pool = st.pool ∨
    ∃ s, provider st.calls = some s ∧
      (growStep p provider st).pool = st.pool ++ [s] := by
  unfold growStep
  by_cases h : st.pool.length < p
  · rw [if_pos h]
    cases hs : provider st.calls with
    | none => exact Or.inl rfl
    | some s =>
        by_cases hv : s.lines ≠ [] ∧ s.hlIndex ≠ -1
        · simp only [if_pos hv]
          exact Or.inr ⟨s, rfl, rfl⟩
        · simp only [if_neg hv]
          simp
  · rw [if_neg h]
    exact Or.inl rfl

/-- A tick from a state satisfying `PoolInv` either succeeds in a state that
still satisfies `PoolInv`, or fails with the empty-pool error; in
particular the cursor read never raises `IndexError`. -/
lemma poolTick_inv (f p : ℕ) (provider : ℕ → Option PoolSnippet)
    (hprov : ∀ n s, provider n = some s →
      0 ≤ s.hlIndex ∧ s.hlIndex < s.lines.length)
    (st : PoolState) (hinv : PoolInv st) :
    (∃ c st', poolTick f p provider st = .ok (c, st') ∧ PoolInv st') ∨
    poolTick f p provider st =
      .error ("Failed to generate valid text content.".toList) := by
  by_cases hneed : needNew f st = true
  · rcases growStep_pool_cases p provider st with hsame | ⟨s, hs, happ⟩
    · by_cases hempty : st.pool = []
      · right
        have hgr : growRotate p provider st =
            .error ("Failed to generate valid text content.".toList) := by
          unfold growRotate
          rw [if_pos (by simp [hsame, hempty])]
        unfold poolTick
        rw [hneed]
        simp only [if_true, bind, Except.bind, hgr]
      · left
        have hlen : 0 < st.pool.length := List.length_pos.mpr hempty
        have hgr := @growRotate_ok p provider st _ rfl
          (by rw [hsame]; exact hempty)
        have hcur2 : ((st.curIndex + 1) % (growStep p provider st).pool.length)
            < (growStep p provider st).pool.length := by
          rw [hsame]; exact Nat.mod_lt _ hlen
        have htick := poolTick_rotate hneed hgr (by simpa using hcur2)
        refine ⟨_, _, htick, ?_, ?_⟩
        · intro _
          simpa using hcur2
        · intro x hx
          simp only [hsame] at hx
          exact hinv.2 x hx
    · left
      have hlen : 0 < (st.pool ++ [s]).length := by simp
      have hgr := @growRotate_ok p provider st _ rfl (by rw [happ]; simp)
      have hcur2 : ((st.curIndex + 1) % (growStep p provider st).pool.length)
          < (growStep p provider st).pool.length := by
        rw [happ]; exact Nat.mod_lt _ hlen
      have htick := poolTick_rotate hneed hgr (by simpa using hcur2)
      refine ⟨_, _, htick, ?_, ?_⟩
      · intro _
        simpa using hcur2
      · intro x hx
        simp only [happ] at hx
        rcases List.mem_append.mp hx with hmem | hmem
        · exact hinv.2 x hmem
        · have : x = s := by simpa using hmem
          subst this
          exact hprov st.calls x hs
  · have hneed' : needNew f st = false := by
      cases h : needNew f st
      · rfl
      · exact absurd h hneed
    have hne : st.pool ≠ [] := by
      intro h
      apply hneed
      simp [needNew, h]
    obtain ⟨c, htick⟩ := @poolTick_reuse f p provider _
      hneed' (hinv.1 hne)
    exact Or.inl ⟨c, _, htick, fun _ => hinv.1 hne, hinv.2⟩

lemma runPool_succ_inv {f p : ℕ} {provider : ℕ → Option PoolSnippet} {k : ℕ}
    {x : PoolState} (h : runPool f p provider (k + 1) = .ok x) :
    ∃ st c, runPool f p provider k = .ok st ∧
      poolTick f p provider st = .ok (c, x) := by
  rw [runPool] at h
  cases hr : runPool f p provider k with
  | error e =>
      rw [hr] at h
      simp [bind, Except.bind] at h
  | ok st =>
      rw [hr] at h
      simp only [bind, Except.bind] at h
      cases ht : poolTick f p provider st with
      | error e =>
          rw [ht] at h
          simp at h
      | ok r =>
          obtain ⟨c, st'⟩ := r
          rw [ht] at h
          simp only [Except.ok.injEq] at h
          subst h
          exact ⟨st, c, rfl, ht⟩

/-- C10: throughout generation, whenever the pool is non-empty the rotation
cursor is in range, every stored snippet's highlight index is in range
(given a provider whose successful results satisfy that bound, as both
generators do), and reading the current snippet never indexes out of
bounds: the loop can only fail with the empty-pool error, never with
`IndexError`. -/
theorem c10_pool_index_invariant (f p : ℕ)
    (provider : ℕ → Option PoolSnippet)
    (hprov : ∀ n s, provider n = some s →
      0 ≤ s.hlIndex ∧ s.hlIndex < s.lines.length) (k : ℕ) :
    ∀ st, runPool f p provider k = .ok st →
      ((st.pool ≠ [] → st.curIndex < st.pool.length) ∧
       (∀ s ∈ st.pool, 0 ≤ s.hlIndex ∧ s.hlIndex < s.lines.length) ∧
       poolTick f p provider st ≠ .error ("IndexError".toList)) := by
  induction k with
  | zero =>
      intro st hst
      have : st = initPoolState := by
        simpa [runPool] using hst.symm
      subst this
      have hinv : PoolInv initPoolState :=
        ⟨fun h => absurd rfl h, by simp [initPoolState]⟩
      refine ⟨hinv.1, hinv.2, ?_⟩
      rcases poolTick_inv f p provider hprov _ hinv with ⟨c, st', hok, _⟩ | herr
      · rw [hok]; intro hc; cases hc
      · rw [herr]
        intro hc
        have := Except.error.inj hc
        revert this
        decide
  | succ k ih =>
      intro st hst
      obtain ⟨st₀, c, hrun₀, htick₀⟩ := runPool_succ_inv hst
      obtain ⟨h1, h2, _⟩ := ih st₀ hrun₀
      have hinv₀ : PoolInv st₀ := ⟨h1, h2⟩
      rcases poolTick_inv f p provider hprov st₀ hinv₀ with
        ⟨c', st', hok, hinv'⟩ | herr
      · rw [htick₀] at hok
        have hx : st = st' := by
          have := Except.ok.inj hok
          exact congrArg Prod.snd this
      -- st = st'
        subst hx
        refine ⟨hinv'.1, hinv'.2, ?_⟩
        rcases poolTick_inv f p provider hprov _ hinv' with
          ⟨c'', st'', hok₂, _⟩ | herr₂
        · rw [hok₂]; intro hc; cases hc
        · rw [herr₂]
          intro hc
          have := Except.error.inj hc
          revert this
          decide
      · rw [htick₀] at herr
        cases herr

theorem c10_pool_index_invariant_witness :
    poolTick 3 10 (okProvider sampleSnippet) ⟨[sampleSnippet], 0, 2, 1⟩ ≠
      .error ("IndexError".toList) :=
  (c10_pool_index_invariant 3 10 (okProvider sampleSnippet)
    (fun _ s hs => by
      have h : sampleSnippet = s := Option.some.inj hs
      subst h
      decide) 2 ⟨[sampleSnippet], 0, 2, 1⟩ (by decide)).2.2

/-! ## Font selection and per-frame retry
(get_random_font, modules/image_processing.py lines 11-31;
frame retry loop, modules/video_generator.py lines 180-236)

Font paths are strings; `os.path.exists` and the matplotlib sans-serif
fallback are environment parameters; one random draw feeds each
`random.choice`. -/

def FontPath := List Char
deriving DecidableEq, Repr

/-- `get_random_font`: a random element of `set(font_paths) - set(exclude)`,
falling back to a system sans-serif font (or `None`) when the difference is
empty. -/
def getRandomFont (fontPaths : List FontPath) (exclude : List FontPath)
    (fallback : Option FontPath) (r : ℕ) : Option FontPath :=
  let available := fontPaths.filter (fun fp => decide (fp ∉ exclude))
  if available.isEmpty then fallback
  else some (available.getD (r % available.length) [])

/-- Font chosen for one attempt: an explicitly selected font is used whenever
its file exists, otherwise (and in `random` mode) `get_random_font` draws
from the non-failed fonts. -/
def pickFont (selected : Option FontPath) (fileExists : FontPath → Bool)
    (fontPaths : List FontPath) (fallback : Option FontPath)
    (failed : List FontPath) (r : ℕ) : Option FontPath :=
  match selected with
  | some sf => if fileExists sf then some sf else
      getRandomFont fontPaths failed fallback r
  | none => getRandomFont fontPaths failed fallback r

/-- `failed_fonts.add(path)` (a Python set). -/
def addFailed (failed : List FontPath) (fp : FontPath) : List FontPath :=
  if fp ∈ failed then failed else failed ++ [fp]

/-- The per-frame font retry loop (`while font_retries <
MAX_FONT_RETRIES_PER_FRAME`), instrumented with the list of attempted
fonts.  Returns the outcome (the font that rendered the frame, or the
abort message), the attempted fonts in order, and the final failed set. -/
def fontRetryGo (selected : Option FontPath) (fileExists : FontPath → Bool)
    (fontPaths : List FontPath) (fallback : Option FontPath)
    (renderFails : FontPath → Bool) (rng : ℕ → ℕ) :
    ℕ → List FontPath → List FontPath → ℕ →
    (Except (List Char) FontPath) × List FontPath × List FontPath
  | 0, failed, trace, _ =>
      (.error ("Failed to generate frame. Font issues likely.".toList),
        trace, failed)
  | fuel + 1, failed, trace, k =>
      match pickFont selected fileExists fontPaths fallback failed (rng k) with
      | none =>
          (.error ("No usable fonts available after multiple attempts.".toList),
            trace, failed)
      | some fp =>
          if renderFails fp then
            fontRetryGo selected fileExists fontPaths fallback renderFails rng
              fuel (addFailed failed fp) (trace ++ [fp]) (k + 1)
          else (.ok fp, trace ++ [fp], failed)

def MAX_FONT_RETRIES_PER_FRAME : ℕ := 5

/-- One frame's font-retry loop, starting from the failed set carried over
from earlier frames. -/
def fontRetryLoop (selected : Option FontPath) (fileExists : FontPath → Bool)
    (fontPaths : List FontPath) (fallback : Option FontPath)
    (renderFails : FontPath → Bool) (rng : ℕ → ℕ)
    (failed : List FontPath) :
    (Except (List Char) FontPath) × List FontPath × List FontPath :=
  fontRetryGo selected fileExists fontPaths fallback renderFails rng
    MAX_FONT_RETRIES_PER_FRAME failed [] 0

def selFont : FontPath := "/fonts/Arial.ttf".toList

/-- Counterexample to C8 as stated: with an explicitly selected, accessible
font whose rendering always raises a font error, the loop records the font
in the failed set after the first attempt but retries the SAME font on all
five attempts (it does not retry "with a different font"), then aborts. -/
theorem c8_same_font_retry_counterexample :
    (fontRetryLoop (some selFont) (fun _ => true) [selFont] none
        (fun _ => true) (fun _ => 0) []).2.1 =
      [selFont, selFont, selFont, selFont, selFont] ∧
    (fontRetryLoop (some selFont) (fun _ => true) [selFont] none
        (fun _ => true) (fun _ => 0) []).2.2 = [selFont] ∧
    (fontRetryLoop (some selFont) (fun _ => true) [selFont] none
        (fun _ => true) (fun _ => 0) []).1 =
      .error ("Failed to generate frame. Font issues likely.".toList) := by
  decide

lemma fontRetryGo_trace_len (selected : Option FontPath)
    (fileExists : FontPath → Bool) (fontPaths : List FontPath)
    (fallback : Option FontPath) (renderFails : FontPath → Bool)
    (rng : ℕ → ℕ) :
    ∀ fuel failed trace k,
      ((fontRetryGo selected fileExists fontPaths fallback renderFails rng
        fuel failed trace k).2.1).length ≤ trace.length + fuel := by
  intro fuel
  induction fuel with
  | zero =>
      intro failed trace k
      simp [fontRetryGo]
  | succ fuel ih =>
      intro failed trace k
      unfold fontRetryGo
      cases hpick : pickFont selected fileExists fontPaths fallback failed
          (rng k) with
      | none => simp
      | some fp =>
          by_cases hrf : renderFails fp = true
          · simp only [hrf, if_true]
            calc ((fontRetryGo selected fileExists fontPaths fallback
                renderFails rng fuel (addFailed failed fp) (trace ++ [fp])
                (k + 1)).2.1).length ≤ (trace ++ [fp]).length + fuel :=
                  ih (addFailed failed fp) (trace ++ [fp]) (k + 1)
              _ ≤ trace.length + (fuel + 1) := by simp; omega
          · simp only [hrf, if_false]
            simp

lemma fontRetryGo_all_fail (selected : Option FontPath)
    (fileExists : FontPath → Bool) (fontPaths : List FontPath)
    (fallback : Option FontPath) (renderFails : FontPath → Bool)
    (rng : ℕ → ℕ) (hall : ∀ fp, renderFails fp = true) :
    ∀ fuel failed trace k,
      ∃ e, (fontRetryGo selected fileExists fontPaths fallback renderFails rng
        fuel failed trace k).1 = .error e := by
  intro fuel
  induction fuel with
  | zero =>
      intro failed trace k
      exact ⟨_, rfl⟩
  | succ fuel ih =>
      intro failed trace k
      unfold fontRetryGo
      cases hpick : pickFont selected fileExists fontPaths fallback failed
          (rng k) with
      | none => exact ⟨_, rfl⟩
      | some fp =>
          simp only [hall fp, if_true]
          exact ih (addFailed failed fp) (trace ++ [fp]) (k + 1)

lemma fontRetryGo_selected_same (sf : FontPath)
    (fileExists : FontPath → Bool) (fontPaths : List FontPath)
    (fallback : Option FontPath) (renderFails : FontPath → Bool)
    (rng : ℕ → ℕ) (hex : fileExists sf = true) :
    ∀ fuel failed trace k,
      ∀ fp ∈ (fontRetryGo (some sf) fileExists fontPaths fallback renderFails
        rng fuel failed trace k).2.1, fp ∈ trace ∨ fp = sf := by
  intro fuel
  induction fuel with
  | zero =>
      intro failed trace k fp hfp
      exact Or.inl (by simpa [fontRetryGo] using hfp)
  | succ fuel ih =>
      intro failed trace k fp hfp
      rw [fontRetryGo] at hfp
      have hpick : pickFont (some sf) fileExists fontPaths fallback failed
          (rng k) = some sf := by
        simp [pickFont, hex]
      simp only [hpick] at hfp
      by_cases hrf : renderFails sf = true
      · rw [if_pos hrf] at hfp
        rcases ih (addFailed failed sf) (trace ++ [sf]) (k + 1) fp hfp with
          hmem | heq
        · rcases List.mem_append.mp hmem with h | h
          · exact Or.inl h
          · exact Or.inr (by simpa using h)
        · exact Or.inr heq
      · rw [if_neg hrf] at hfp
        simp only [] at hfp
        rcases List.mem_append.mp hfp with h | h
        · exact Or.inl h
        · exact Or.inr (by simpa using h)

lemma getRandomFont_spec (fontPaths exclude : List FontPath)
    (fallback : Option FontPath) (r : ℕ)
    (hne : fontPaths.filter (fun fp => decide (fp ∉ exclude)) ≠ []) :
    ∃ x, getRandomFont fontPaths exclude fallback r = some x ∧
      x ∈ fontPaths ∧ x ∉ exclude := by
  unfold getRandomFont
  have hemp : (fontPaths.filter (fun fp => decide (fp ∉ exclude))).isEmpty
      = false := by
    simpa [List.isEmpty_iff] using hne
  simp only [hemp, Bool.false_eq_true, if_false]
  set avail := fontPaths.filter (fun fp => decide (fp ∉ exclude)) with havail
  have hlen : 0 < avail.length := List.length_pos.mpr hne
  have hidx : r % avail.length < avail.length := Nat.mod_lt _ hlen
  have hmem : avail.getD (r % avail.length) [] ∈ avail := by
    rw [List.getD_eq_get _ _ hidx]
    exact List.get_mem _ _ _
  have := List.mem_filter.mp hmem
  exact ⟨_, rfl, this.1, by simpa using this.2⟩

lemma filter_not_mem_ne_nil (paths exclude : List FontPath)
    (hnd : paths.Nodup) (hlt : exclude.length < paths.length) :
    paths.filter (fun fp => decide (fp ∉ exclude)) ≠ [] := by
  intro hnil
  have hsub : paths ⊆ exclude := by
    intro fp hfp
    by_contra hmem
    have : fp ∈ paths.filter (fun fp => decide (fp ∉ exclude)) :=
      List.mem_filter.mpr ⟨hfp, by simpa using hmem⟩
    rw [hnil] at this
    cases this
  exact absurd ((List.subperm_of_subset hnd hsub).length_le) (by omega)

lemma fontRetryGo_random_fresh (fileExists : FontPath → Bool)
    (fontPaths : List FontPath) (fallback : Option FontPath)
    (renderFails : FontPath → Bool) (rng : ℕ → ℕ) (failed₀ : List FontPath)
    (hndp : fontPaths.Nodup) :
    ∀ fuel failed trace k, failed₀ ⊆ failed →
      failed.length + fuel ≤ fontPaths.length →
      (∀ fp ∈ trace, fp ∈ failed) → trace.Nodup →
      (fontRetryGo none fileExists fontPaths fallback renderFails rng
        fuel failed trace k).2.1.Nodup ∧
      ∀ fp ∈ (fontRetryGo none fileExists fontPaths fallback renderFails rng
        fuel failed trace k).2.1, fp ∈ trace ∨ fp ∉ failed₀ := by
  intro fuel
  induction fuel with
  | zero =>
      intro failed trace k hsub hflen htr hnd
      refine ⟨by simpa [fontRetryGo] using hnd, ?_⟩
      intro fp hfp
      exact Or.inl (by simpa [fontRetryGo] using hfp)
  | succ fuel ih =>
      intro failed trace k hsub hflen htr hnd
      obtain ⟨x, hx, hxp, hxe⟩ := getRandomFont_spec fontPaths failed
        fallback (rng k)
        (filter_not_mem_ne_nil fontPaths failed hndp (by omega))
      have hpick : pickFont none fileExists fontPaths fallback failed
          (rng k) = some x := by
        unfold pickFont
        exact hx
      rw [fontRetryGo]
      simp only [hpick]
      have hxt : x ∉ trace := fun hmem => hxe (htr x hmem)
      by_cases hrf : renderFails x = true
      · rw [if_pos hrf]
        have hsub' : failed₀ ⊆ addFailed failed x := by
          intro a ha
          unfold addFailed
          by_cases hm : x ∈ failed
          · rw [if_pos hm]; exact hsub ha
          · rw [if_neg hm]
            exact List.mem_append.mpr (Or.inl (hsub ha))
        have htr' : ∀ fp ∈ trace ++ [x], fp ∈ addFailed failed x := by
          intro fp hfp
          unfold addFailed
          by_cases hm : x ∈ failed
          · rw [if_pos hm]
            rcases List.mem_append.mp hfp with h | h
            · exact htr fp h
            · have hfx : fp = x := by simpa using h
              rw [hfx]
              exact hm
          · rw [if_neg hm]
            rcases List.mem_append.mp hfp with h | h
            · exact List.mem_append.mpr (Or.inl (htr fp h))
            · exact List.mem_append.mpr (Or.inr h)
        have hnd' : (trace ++ [x]).Nodup := by
          rw [List.nodup_append]
          exact ⟨hnd, List.nodup_singleton x, by
            intro a ha hb
            have : a = x := by simpa using hb
            subst this
            exact hxt ha⟩
        have hflen' : (addFailed failed x).length + fuel ≤
            fontPaths.length := by
          unfold addFailed
          by_cases hm : x ∈ failed
          · rw [if_pos hm]; omega
          · rw [if_neg hm]; simp; omega
        obtain ⟨h1, h2⟩ := ih (addFailed failed x) (trace ++ [x]) (k + 1)
          hsub' hflen' htr' hnd'
        refine ⟨h1, ?_⟩
        intro fp hfp
        rcases h2 fp hfp with hmem | hnot
        · rcases List.mem_append.mp hmem with h | h
          · exact Or.inl h
          · have : fp = x := by simpa using h
            subst this
            exact Or.inr (fun hc => hxe (hsub hc))
        · exact Or.inr hnot
      · rw [if_neg hrf]
        simp only []
        constructor
        · rw [List.nodup_append]
          exact ⟨hnd, List.nodup_singleton x, by
            intro a ha hb
            have : a = x := by simpa using hb
            subst this
            exact hxt ha⟩
        · intro fp hfp
          rcases List.mem_append.mp hfp with h | h
          · exact Or.inl h
          · have : fp = x := by simpa using h
            subst this
            exact Or.inr (fun hc => hxe (hsub hc))

/-- C8 as amended: on a font error the loop records the failed font and
retries the frame, with at most 5 attempts per frame; if every attempt
fails the generation aborts with an error instead of skipping the frame;
with random font selection (and enough distinct fonts) no attempt repeats a
previously failed font; with an explicitly selected accessible font every
retry uses that same font again. -/
theorem c8_font_retry_policy (fileExists : FontPath → Bool)
    (fontPaths : List FontPath) (fallback : Option FontPath)
    (renderFails : FontPath → Bool) (rng : ℕ → ℕ)
    (failed₀ : List FontPath) :
    (∀ selected, ((fontRetryLoop selected fileExists fontPaths fallback
        renderFails rng failed₀).2.1).length ≤ MAX_FONT_RETRIES_PER_FRAME) ∧
    ((∀ fp, renderFails fp = true) → ∀ selected,
      ∃ e, (fontRetryLoop selected fileExists fontPaths fallback renderFails
        rng failed₀).1 = .error e) ∧
    (∀ sf, fileExists sf = true →
      ∀ fp ∈ (fontRetryLoop (some sf) fileExists fontPaths fallback
        renderFails rng failed₀).2.1, fp = sf) ∧
    (fontPaths.Nodup →
      failed₀.length + MAX_FONT_RETRIES_PER_FRAME ≤ fontPaths.length →
      (fontRetryLoop none fileExists fontPaths fallback renderFails rng
        failed₀).2.1.Nodup ∧
      ∀ fp ∈ (fontRetryLoop none fileExists fontPaths fallback renderFails
        rng failed₀).2.1, fp ∉ failed₀) := by
  refine ⟨?_, ?_, ?_, ?_⟩
  · intro selected
    have := fontRetryGo_trace_len selected fileExists fontPaths fallback
      renderFails rng MAX_FONT_RETRIES_PER_FRAME failed₀ [] 0
    simpa [fontRetryLoop] using this
  · intro hall selected
    exact fontRetryGo_all_fail selected fileExists fontPaths fallback
      renderFails rng hall MAX_FONT_RETRIES_PER_FRAME failed₀ [] 0
  · intro sf hex fp hfp
    have := fontRetryGo_selected_same sf fileExists fontPaths fallback
      renderFails rng hex MAX_FONT_RETRIES_PER_FRAME failed₀ [] 0 fp hfp
    rcases this with h | h
    · cases h
    · exact h
  · intro hndp hbig
    have := fontRetryGo_random_fresh fileExists fontPaths fallback
      renderFails rng failed₀ hndp MAX_FONT_RETRIES_PER_FRAME failed₀ [] 0
      (fun _ h => h) (by simpa using hbig) (by intro fp h; cases h)
      List.nodup_nil
    refine ⟨this.1, ?_⟩
    intro fp hfp
    rcases this.2 fp hfp with h | h
    · cases h
    · exact h

theorem c8_font_retry_policy_witness :
    ((∀ fp, (fun _ : FontPath => true) fp = true) →
      ∃ e, (fontRetryLoop (some selFont) (fun _ => true) [selFont] none
        (fun _ => true) (fun _ => 0) []).1 = .error e) ∧
    (∀ fp ∈ (fontRetryLoop (some selFont) (fun _ => true) [selFont] none
        (fun _ => true) (fun _ => 0) []).2.1, fp = selFont) := by
  have h := c8_font_retry_policy (fun _ => true) [selFont] none
    (fun _ => true) (fun _ => 0) []
  exact ⟨fun hall => h.2.1 hall (some selFont), h.2.2.1 selFont rfl⟩

/-! ## Whole-run frame loop (generate_video, modules/video_generator.py
lines 112-236)

The progress log at line 223 computes
`frame_num % (total_frames // 10)` inside the `try:` block; only
`FontLoadError`/`FontDrawError` are caught, so a Python
`ZeroDivisionError` escapes `generate_video` unhandled. -/

inductive RunError where
  | message : List Char → RunError
  | zeroDivisionError : RunError
deriving DecidableEq, Repr

/-- Python `%` on ints: raises `ZeroDivisionError` on a zero divisor. -/
def pyMod (a b : ℕ) : Except RunError ℕ :=
  if b = 0 then .error .zeroDivisionError else .ok (a % b)

/-- The generation loop with successful rendering: one iteration per frame,
supplying text through the pool and evaluating the progress-log guard
`frame_num % (total_frames // 10) == 0`. -/
def videoFrames (f p : ℕ) (provider : ℕ → Option PoolSnippet)
    (totalF : ℕ) : ℕ → Except RunError PoolState
  | 0 => .ok initPoolState
  | k + 1 => do
      let st ← videoFrames f p provider totalF k
      let r ← match poolTick f p provider st with
        | .ok r => Except.ok r
        | .error e => Except.error (RunError.message e)
      let _ ← pyMod k (totalF / 10)
      .ok r.2

/-- `generate_video` restricted to its loop: renders
`int(fps * duration)` frames and hands them to the encoder. -/
def generateVideoRun (f p : ℕ) (provider : ℕ → Option PoolSnippet)
    (fps duration : ℕ) : Except RunError ℕ := do
  let _ ← videoFrames f p provider (totalFrames fps duration)
    (totalFrames fps duration)
  .ok (totalFrames fps duration)

/-- C9 failing input: fps=1 and duration=5 lie within the documented bounds
(fps in [1,60], duration in [1,60]) and text generation succeeds on every
request, yet the run dies with an unhandled `ZeroDivisionError` on the very
first frame, because `total_frames // 10 = 0` in the progress-log guard.
The loop does not return an output filename or an error message. -/
theorem c9_progress_division_bug :
    generateVideoRun 3 10 (okProvider sampleSnippet) 1 5 =
      .error .zeroDivisionError ∧ totalFrames 1 5 = 5 := by
  decide

/-! ## Frame compositor
(create_text_image_frame, modules/image_processing.py lines 33-260;
create_paper_texture, modules/textures.py lines 5-111)

Pixel rasters are represented by the exact data each deterministic PIL
operation receives: the background layer (a loaded texture file, or the
procedural paper texture with its sampled noise and grain), the per-line
draw positions, the blur-stage parameters, and the final highlight
overlay.  Two invocations produce pixel-identical images exactly when
these records are equal.  Font metric calls (`getmetrics`, `getlength`,
`getbbox`) are fields of `FontMetrics`; Python `int()` is `pyInt`. -/

/-- Python `int()` on a float: truncation toward zero. -/
def pyInt (q : ℚ) : ℤ := Int.div q.num (q.den : ℤ)

structure FontMetrics where
  hasMetrics : Bool
  ascent : ℕ
  descent : ℤ
  glyphLength : List Char → ℚ
  bboxTop : List Char → ℤ
  bboxBottom : List Char → ℤ

/-- Number of random draws consumed by the noise layer of
`create_paper_texture` (`np.random.normal` over an `(h, w, 3)` array). -/
def noiseDraws (w h : ℕ) : ℕ := h * w * 3

/-- Number of grain dots (`for _ in range(width * height // 100)`). -/
def grainDots (w h : ℕ) : ℕ := w * h / 100

structure PaperTexture where
  noise : List ℕ
  grain : List (ℕ × ℕ × ℕ × ℕ)
deriving DecidableEq, Repr

/-- The procedural paper branch of `create_paper_texture`: a Gaussian noise
layer followed by grain dots at `randint(0,w-1), randint(0,h-1)` with size
`randint(1, grain_size)` and brightness `randint(200, 255)`; the edge
shadow is deterministic. -/
def paperProcedural (w h grainSize : ℕ) (rng : ℕ → ℕ) : PaperTexture :=
  { noise := (List.range (noiseDraws w h)).map (fun i => rng i % 256),
    grain := (List.range (grainDots w h)).map (fun j =>
      let base := noiseDraws w h + 4 * j
      (rng base % w, rng (base + 1) % h,
        1 + rng (base + 2) % grainSize, 200 + rng (base + 3) % 56)) }

inductive BackgroundLayer where
  | loaded (name : List Char) (file : ℕ)
  | paper (color : List Char) (tex : PaperTexture)
deriving DecidableEq, Repr

/-- `create_paper_texture`: with a texture selector other than `none`, load
the named file (cover-fit, brightness/contrast nudge and alpha are
deterministic in the file) and return `None` when it is missing;
otherwise synthesize the procedural paper texture. -/
def createPaperTexture (w h : ℕ) (color : List Char) (grainSize : ℕ)
    (textureName : Option (List Char)) (mediaFiles : List Char → Option ℕ)
    (rng : ℕ → ℕ) : Option BackgroundLayer :=
  match textureName with
  | some name =>
      if name ≠ "none".toList then
        match mediaFiles name with
        | some file => some (.loaded name file)
        | none => none
      else some (.paper color (paperProcedural w h grainSize rng))
  | none => some (.paper color (paperProcedural w h grainSize rng))

/-- First index of `pat` in `s` (Python `str.index`, `None` for
`ValueError`). -/
def findSubIdx (pat : List Char) : List Char → Option ℕ
  | [] => if pat.isPrefixOf ([] : List Char) then some 0 else none
  | c :: rest =>
      if pat.isPrefixOf (c :: rest) then some 0
      else (findSubIdx pat rest).map (· + 1)

structure Layout where
  lineHeight : ℤ
  hlWidth : ℚ
  hlHeight : ℚ
  highlightX : ℚ
  centeredY : ℚ
  blockStartY : ℚ
  highlightY : ℚ
  highlightFound : Bool
  bgHighlightLineStartX : ℚ
deriving DecidableEq

/-- The layout block of `create_text_image_frame` (lines 91-149): line
height with its degenerate-spacing floor, bold-font highlight metrics with
their fallbacks, the horizontal centering `highlight_target_x = (width -
highlight_width_bold) / 2`, the initial `highlight_target_y = (height -
highlight_height_bold) / 2` (kept as `centeredY`), the centered block
start, the overwrite `highlight_target_y = block_start_y +
highlight_line_index * line_height`, and the regular-font prefix
alignment for the background copy of the highlight line. -/
def computeLayout (width height fontSize : ℕ) (vsf : ℚ)
    (font bold : FontMetrics) (textLines : List (List Char))
    (hlIndex : ℕ) (hlText : List Char) : Layout :=
  let metricHeight : ℤ := (font.ascent : ℤ) + |font.descent|
  let lineHeight0 : ℤ :=
    if font.hasMetrics then pyInt ((metricHeight : ℚ) * vsf)
    else pyInt (((font.bboxBottom ("Ay".toList) -
      font.bboxTop ("Ay".toList) : ℤ) : ℚ) * vsf)
  let lineHeight : ℤ :=
    if (lineHeight0 : ℚ) ≤ (fontSize : ℚ) * (8/10)
    then pyInt ((fontSize : ℚ) * (12/10) * vsf) else lineHeight0
  let hlW0 : ℚ := bold.glyphLength hlText
  let hlH0 : ℚ := ((bold.bboxBottom hlText - bold.bboxTop hlText : ℤ) : ℚ)
  let hlH : ℚ := if hlW0 ≤ 0 ∨ hlH0 ≤ 0
    then ((pyInt ((fontSize : ℚ) * (11/10))) : ℚ) else hlH0
  let hlW : ℚ := if hlW0 ≤ 0 ∨ hlH0 ≤ 0
    then (if hlW0 ≤ 0 then (hlText.length : ℚ) * (fontSize : ℚ) * (6/10)
      else hlW0)
    else hlW0
  let highlightX : ℚ := ((width : ℚ) - hlW) / 2
  let centeredY : ℚ := ((height : ℚ) - hlH) / 2
  let totalBlockHeight : ℤ := lineHeight * (textLines.length : ℤ)
  let verticalCenterOffset : ℚ :=
    ((height : ℚ) - (totalBlockHeight : ℚ)) / 2
  let blockStartY : ℚ := max 10 verticalCenterOffset
  let highlightY : ℚ := blockStartY + (hlIndex : ℚ) * (lineHeight : ℚ)
  let hlLine : List Char := textLines.getD hlIndex []
  let prefixText : List Char :=
    match findSubIdx hlText hlLine with
    | some i => hlLine.take i
    | none => []
  let highlightFound : Bool := (findSubIdx hlText hlLine).isSome
  let prefixWidthRegular : ℚ := font.glyphLength prefixText
  ⟨lineHeight, hlW, hlH, highlightX, centeredY, blockStartY, highlightY,
    highlightFound, highlightX - prefixWidthRegular⟩

/-- Horizontal position of line `i` in the base drawing pass: the
highlight line is placed so its regular-width prefix ends at
`highlight_target_x`; other lines are centered with a 20 px minimum inset
and confined to a central column when shorter than 30% of the frame. -/
def lineXPos (width : ℕ) (font : FontMetrics) (layout : Layout)
    (hlIndex : ℕ) (i : ℕ) (line : List Char) : ℚ :=
  if i = hlIndex ∧ layout.highlightFound then layout.bgHighlightLineStartX
  else
    let lineWidth := font.glyphLength line
    let lx := max 20 (((width : ℚ) - lineWidth) / 2)
    if lineWidth < (width : ℚ) * (3/10)
    then max lx (((width : ℚ) - (width : ℚ) * (7/10)) / 2) else lx

inductive BlurStage where
  | gaussianPadded (padding : ℤ) (radius : ℚ)
  | radial (fullBlurRadius sharpCenterRadius fadeRadius : ℚ)
  | noBlur
deriving DecidableEq, Repr

/-- The mode-dependent blur stage (lines 194-224): padded Gaussian blur,
or the radial sharp-center composite, or a pass-through. -/
def blurStage (w h : ℕ) (blurType : List Char)
    (blurRadius sharpFactor : ℚ) : BlurStage :=
  if blurType = "gaussian".toList ∧ 0 < blurRadius then
    .gaussianPadded (pyInt (blurRadius * 3)) blurRadius
  else if blurType = "radial".toList ∧ 0 < blurRadius then
    let sharpCenterRadius := ((min w h : ℕ) : ℚ) * sharpFactor
    .radial (blurRadius * (3/2)) sharpCenterRadius
      (sharpCenterRadius + ((max w h : ℕ) : ℚ) * (3/20))
  else .noBlur

structure Overlay where
  rectTopLeft : ℚ × ℚ
  rectBottomRight : ℚ × ℚ
  textPos : ℚ × ℚ
deriving DecidableEq

structure Frame where
  background : BackgroundLayer
  textColor : List Char
  highlightColor : List Char
  drawnLines : List (ℚ × ℚ × List Char)
  blur : BlurStage
  overlay : Overlay
deriving DecidableEq

/-- `create_text_image_frame`: background texture (falling back to the
procedural paper on a failed load, consuming further random draws), text
layout, the two identical text passes, the blur stage, and the final
always-sharp highlight overlay (rectangle padded by `font_size * 0.10`
plus the bold phrase at `(highlight_target_x, highlight_target_y)`). -/
def createTextImageFrame (width height : ℕ) (textLines : List (List Char))
    (hlIndex : ℕ) (hlText : List Char) (font bold : FontMetrics)
    (fontSize : ℕ) (textColor bgColor highlightColor : List Char)
    (blurType : List Char) (blurRadius sharpFactor vsf yOffset : ℚ)
    (textureName : Option (List Char)) (mediaFiles : List Char → Option ℕ)
    (rng : ℕ → ℕ) : Frame :=
  let imgBase : BackgroundLayer :=
    match createPaperTexture width height bgColor 2 textureName mediaFiles
      rng with
    | some bg => bg
    | none => .paper bgColor (paperProcedural width height 2
        (fun k => rng (noiseDraws width height + 4 * grainDots width height + k)))
  let layout := computeLayout width height fontSize vsf font bold textLines
    hlIndex hlText
  { background := imgBase,
    textColor := textColor,
    highlightColor := highlightColor,
    drawnLines := (List.range textLines.length).map (fun i =>
      let line := textLines.getD i []
      (lineXPos width font layout hlIndex i line,
        layout.blockStartY + yOffset + (i : ℚ) * (layout.lineHeight : ℚ),
        line)),
    blur := blurStage width height blurType blurRadius sharpFactor,
    overlay :=
      { rectTopLeft := (layout.highlightX - (fontSize : ℚ) * (1/10),
          layout.highlightY - (fontSize : ℚ) * (1/10)),
        rectBottomRight :=
          (layout.highlightX + layout.hlWidth + (fontSize : ℚ) * (1/10),
            layout.highlightY + layout.hlHeight + (fontSize : ℚ) * (1/10)),
        textPos := (layout.highlightX, layout.highlightY) } }

lemma pyInt_intCast (n : ℤ) : pyInt (n : ℚ) = n := by
  simp [pyInt]

def cexFont : FontMetrics :=
  ⟨true, 40, -10, fun _ => 600, fun _ => 0, fun _ => 50⟩

/-- Counterexample to C1 as stated: a frame whose highlight line is the
first of ten lines.  The bold box is 600x50 in a 1000x1000 frame, so the
claimed center is `((1000-600)/2, (1000-50)/2) = (200, 475)`; the overlay
is drawn at y = 125 (the centered text block's first line), 350 px away
from the claimed vertically centered position. -/
theorem c1_vertical_centering_counterexample :
    ¬ (|(createTextImageFrame 1000 1000 (List.replicate 10 ['x']) 0 ['h']
        cexFont cexFont 60 ("black".toList) ("white".toList)
        ("yellow".toList) ("none".toList) 0 (3/10) (3/2) 0 none
        (fun _ => none) (fun _ => 0)).overlay.textPos.2 -
          ((1000 : ℚ) - 50) / 2| ≤ 1) := by
  have h75 : pyInt ((75 : ℚ)) = (75 : ℤ) := by
    rw [show (75 : ℚ) = ((75 : ℤ) : ℚ) by norm_num, pyInt_intCast]
  simp only [createTextImageFrame, computeLayout, cexFont]
  norm_num [h75]

/-- C1 as amended: for every rendered frame the highlight overlay is
horizontally centered within ±1 px of `(width - hlWidth) / 2` (in fact
exactly), its vertical position equals `block_start_y +
highlight_line_index * line_height` (the anchor of the vertically centered
text block, not `(height - hlHeight) / 2`), and the overlay position is
identical whatever the blur mode, radius and sharp-radius factor. -/
theorem c1_highlight_centering_amended (width height : ℕ)
    (textLines : List (List Char)) (hlIndex : ℕ) (hlText : List Char)
    (font bold : FontMetrics) (fontSize : ℕ)
    (textColor bgColor highlightColor blurType : List Char)
    (blurRadius sharpFactor vsf yOffset : ℚ)
    (textureName : Option (List Char)) (mediaFiles : List Char → Option ℕ)
    (rng : ℕ → ℕ) :
    |(createTextImageFrame width height textLines hlIndex hlText font bold
        fontSize textColor bgColor highlightColor blurType blurRadius
        sharpFactor vsf yOffset textureName mediaFiles rng).overlay.textPos.1
      - ((width : ℚ) - (computeLayout width height fontSize vsf font bold
        textLines hlIndex hlText).hlWidth) / 2| ≤ 1 ∧
    (createTextImageFrame width height textLines hlIndex hlText font bold
        fontSize textColor bgColor highlightColor blurType blurRadius
        sharpFactor vsf yOffset textureName mediaFiles rng).overlay.textPos.2
      = (computeLayout width height fontSize vsf font bold textLines hlIndex
          hlText).blockStartY +
        (hlIndex : ℚ) * ((computeLayout width height fontSize vsf font bold
          textLines hlIndex hlText).lineHeight : ℚ) ∧
    ∀ blurType' : List Char, ∀ blurRadius' sharpFactor' : ℚ,
      (createTextImageFrame width height textLines hlIndex hlText font bold
        fontSize textColor bgColor highlightColor blurType' blurRadius'
        sharpFactor' vsf yOffset textureName mediaFiles rng).overlay =
      (createTextImageFrame width height textLines hlIndex hlText font bold
        fontSize textColor bgColor highlightColor blurType blurRadius
        sharpFactor vsf yOffset textureName mediaFiles rng).overlay := by
  refine ⟨?_, ?_, ?_⟩
  · simp [createTextImageFrame, computeLayout]
  · simp [createTextImageFrame, computeLayout]
  · intro blurType' blurRadius' sharpFactor'
    rfl

def c2Font : FontMetrics := ⟨true, 8, -2, fun _ => 5, fun _ => 0, fun _ => 8⟩

/-- Counterexample to C2 as stated: with the procedural paper background
(texture selector "none") and y_offset = 0, two renders with identical
parameters draw fresh Gaussian noise and grain from the global random
source, so the output images are not pixel-identical. -/
theorem c2_determinism_counterexample :
    createTextImageFrame 10 10 [['a']] 0 ['a'] c2Font c2Font 1
      ("black".toList) ("white".toList) ("yellow".toList) ("none".toList)
      0 (3/10) (13/10) 0 (some ("none".toList)) (fun _ => none)
      (fun _ => 0) ≠
    createTextImageFrame 10 10 [['a']] 0 ['a'] c2Font c2Font 1
      ("black".toList) ("white".toList) ("yellow".toList) ("none".toList)
      0 (3/10) (13/10) 0 (some ("none".toList)) (fun _ => none)
      (fun _ => 1) := by
  intro h
  have hb := congrArg Frame.background h
  revert hb
  decide

/-- C2 as amended: rendering is deterministic in its parameters and the
texture file whenever the background texture selector names a texture that
loads; only the procedural paper background (selector "none" or a missing
file) consumes the global random source, making re-renders differ. -/
theorem c2_render_determinism_amended (width height : ℕ)
    (textLines : List (List Char)) (hlIndex : ℕ) (hlText : List Char)
    (font bold : FontMetrics) (fontSize : ℕ)
    (textColor bgColor highlightColor blurType : List Char)
    (blurRadius sharpFactor vsf yOffset : ℚ) (name : List Char) (file : ℕ)
    (mediaFiles : List Char → Option ℕ) (rng₁ rng₂ : ℕ → ℕ)
    (hname : name ≠ "none".toList) (hfile : mediaFiles name = some file) :
    createTextImageFrame width height textLines hlIndex hlText font bold
      fontSize textColor bgColor highlightColor blurType blurRadius
      sharpFactor vsf yOffset (some name) mediaFiles rng₁ =
    createTextImageFrame width height textLines hlIndex hlText font bold
      fontSize textColor bgColor highlightColor blurType blurRadius
      sharpFactor vsf yOffset (some name) mediaFiles rng₂ := by
  have hbg : ∀ rng : ℕ → ℕ, createPaperTexture width height bgColor 2
      (some name) mediaFiles rng = some (.loaded name file) := by
    intro rng
    unfold createPaperTexture
    simp only [if_pos hname, hfile]
  simp only [createTextImageFrame, hbg rng₁, hbg rng₂]

theorem c2_render_determinism_amended_witness :
    createTextImageFrame 10 10 [['a']] 0 ['a'] c2Font c2Font 1
      ("black".toList) ("white".toList) ("yellow".toList) ("none".toList)
      0 (3/10) (13/10) 0 (some ("paper.jpg".toList))
      (fun n => if n = "paper.jpg".toList then some 7 else none)
      (fun _ => 0) =
    createTextImageFrame 10 10 [['a']] 0 ['a'] c2Font c2Font 1
      ("black".toList) ("white".toList) ("yellow".toList) ("none".toList)
      0 (3/10) (13/10) 0 (some ("paper.jpg".toList))
      (fun n => if n = "paper.jpg".toList then some 7 else none)
      (fun _ => 1) :=
  c2_render_determinism_amended 10 10 [['a']] 0 ['a'] c2Font c2Font 1
    ("black".toList) ("white".toList) ("yellow".toList) ("none".toList)
    0 (3/10) (13/10) 0 ("paper.jpg".toList) 7
    (fun n => if n = "paper.jpg".toList then some 7 else none)
    (fun _ => 0) (fun _ => 1) (by decide) (by simp)

/-! ## Procedural text generation
(modules/text_generation.py)

Python strings are `List Char`; `random.choice` and `random.randint` draw
from an explicit stream.  `str.replace(pat, w, 1)` is `replaceFirst`,
`pat in s` is `isSubstr`. -/

structure Rng where
  stream : ℕ → ℕ
  pos : ℕ

def Rng.next (g : Rng) (bound : ℕ) : ℕ × Rng :=
  (g.stream g.pos % bound, ⟨g.stream, g.pos + 1⟩)

/-- `random.randint(a, b)` (both ends inclusive). -/
def Rng.randint (g : Rng) (a b : ℕ) : ℕ × Rng :=
  let (v, g') := g.next (b - a + 1)
  (a + v, g')

/-- `random.choice(l)`. -/
def Rng.choice (g : Rng) (l : List (List Char)) : List Char × Rng :=
  let (i, g') := g.next l.length
  (l.getD i [], g')

def braceL : Char := '\x7b'

def braceR : Char := '\x7d'

/-- Python `pat in s` (substring test). -/
def isSubstr (pat s : List Char) : Bool :=
  s.tails.any (fun tl => pat.isPrefixOf tl)

/-- Python `s.replace(pat, w, 1)`: replace the first occurrence only. -/
def replaceFirst (pat w : List Char) : List Char → List Char
  | [] => []
  | c :: rest =>
      if pat.isPrefixOf (c :: rest) then w ++ (c :: rest).drop pat.length
      else c :: replaceFirst pat w rest

lemma isSubstr_infix_iff (pat s : List Char) :
    isSubstr pat s = true ↔ pat <:+: s := by
  unfold isSubstr
  rw [List.any_eq_true]
  constructor
  · rintro ⟨tl, htl, hpre⟩
    have hsuf : tl <:+ s := (List.mem_tails tl s).mp htl
    obtain ⟨u, rfl⟩ := hsuf
    obtain ⟨v, rfl⟩ := List.isPrefixOf_iff_prefix.mp hpre
    exact ⟨u, v, by simp⟩
  · rintro ⟨u, v, rfl⟩
    refine ⟨pat ++ v, (List.mem_tails _ _).mpr ⟨u, by simp⟩, ?_⟩
    exact List.isPrefixOf_iff_prefix.mpr ⟨v, rfl⟩

lemma replaceFirst_of_not_infix {pat w s : List Char} (h : ¬ pat <:+: s) :
    replaceFirst pat w s = s := by
  induction s with
  | nil => rfl
  | cons c rest ih =>
      have hrest : ¬ pat <:+: rest := fun hc =>
        h (List.infix_cons_iff.mpr (Or.inr hc))
      have hpre : ¬ pat.isPrefixOf (c :: rest) = true := fun hp =>
        h (List.isPrefixOf_iff_prefix.mp hp).isInfix
      unfold replaceFirst
      rw [if_neg hpre, ih hrest]

lemma infix_of_cons_elim {pat : List Char} {c : Char} {rest : List Char}
    (h : pat <:+: (c :: rest)) (hnp : ¬ pat.isPrefixOf (c :: rest) = true) :
    pat <:+: rest := by
  rcases List.infix_cons_iff.mp h with hp | hi
  · exact absurd (List.isPrefixOf_iff_prefix.mpr hp) hnp
  · exact hi

lemma replaceFirst_length {pat w : List Char} (hne : pat ≠ []) :
    ∀ {s : List Char}, pat <:+: s →
      (replaceFirst pat w s).length + pat.length = s.length + w.length := by
  intro s
  induction s with
  | nil =>
      intro h
      exact absurd (List.eq_nil_of_infix_nil h) hne
  | cons c rest ih =>
      intro h
      by_cases hp : pat.isPrefixOf (c :: rest) = true
      · unfold replaceFirst
        rw [if_pos hp]
        have hlen : pat.length ≤ (c :: rest).length :=
          (List.isPrefixOf_iff_prefix.mp hp).length_le
        simp only [List.length_cons] at hlen
        simp only [List.length_append, List.length_drop, List.length_cons]
        omega
      · unfold replaceFirst
        rw [if_neg hp]
        have := ih (infix_of_cons_elim h hp)
        simp only [List.length_cons]
        omega

lemma replaceFirst_count {pat w : List Char} (hne : pat ≠ []) (a : Char) :
    ∀ {s : List Char}, pat <:+: s →
      (replaceFirst pat w s).count a + pat.count a =
        s.count a + w.count a := by
  intro s
  induction s with
  | nil =>
      intro h
      exact absurd (List.eq_nil_of_infix_nil h) hne
  | cons c rest ih =>
      intro h
      by_cases hp : pat.isPrefixOf (c :: rest) = true
      · unfold replaceFirst
        rw [if_pos hp]
        obtain ⟨r2, hr2⟩ := List.isPrefixOf_iff_prefix.mp hp
        rw [← hr2, List.drop_left, List.count_append, List.count_append]
        omega
      · unfold replaceFirst
        rw [if_neg hp]
        have := ih (infix_of_cons_elim h hp)
        rw [List.count_cons, List.count_cons]
        omega

lemma replaceFirst_getLast {pat w : List Char} {c : Char} :
    ∀ {s : List Char}, s.getLast? = some c → c ∉ pat →
      (replaceFirst pat w s).getLast? = some c := by
  intro s
  induction s with
  | nil => intro h _; cases h
  | cons x rest ih =>
      intro hlast hc
      by_cases hp : pat.isPrefixOf (x :: rest) = true
      · unfold replaceFirst
        rw [if_pos hp]
        obtain ⟨r2, hr2⟩ := List.isPrefixOf_iff_prefix.mp hp
        have hr2ne : r2 ≠ [] := by
          intro hr
          subst hr
          rw [List.append_nil] at hr2
          rw [hr2] at hc
          exact hc (List.mem_of_getLast?_eq_some hlast)
        rw [← hr2, List.drop_left]
        rw [List.getLast?_append_of_ne_nil w hr2ne]
        rw [← hr2, List.getLast?_append_of_ne_nil pat hr2ne] at hlast
        exact hlast
      · unfold replaceFirst
        rw [if_neg hp]
        by_cases hrne : rest = []
        · subst hrne
          simpa [replaceFirst] using hlast
        · have hlast' : rest.getLast? = some c := by
            rw [show (x :: rest) = [x] ++ rest by simp,
              List.getLast?_append_of_ne_nil [x] hrne] at hlast
            exact hlast
          have hres := ih hlast' hc
          have hne2 : replaceFirst pat w rest ≠ [] := by
            intro hnil
            rw [hnil] at hres
            cases hres
          rw [show (x :: replaceFirst pat w rest) =
            [x] ++ replaceFirst pat w rest by simp,
            List.getLast?_append_of_ne_nil [x] hne2]
          exact hres

lemma replaceFirst_append_left {pat w : List Char} :
    ∀ {u v : List Char},
      (∀ u₂, u₂ ≠ [] → u₂ <:+ u → ¬ pat.isPrefixOf (u₂ ++ v) = true) →
      replaceFirst pat w (u ++ v) = u ++ replaceFirst pat w v := by
  intro u
  induction u with
  | nil => intro v _; rfl
  | cons c u' ih =>
      intro v hno
      have hnp : ¬ pat.isPrefixOf (c :: u' ++ v) = true :=
        hno (c :: u') (by simp) (List.suffix_refl _)
      have hstep : replaceFirst pat w (c :: (u' ++ v)) =
          c :: replaceFirst pat w (u' ++ v) := by
        conv_lhs => unfold replaceFirst
        rw [if_neg (by simpa [List.cons_append] using hnp)]
      calc replaceFirst pat w ((c :: u') ++ v)
          = c :: replaceFirst pat w (u' ++ v) := by
            rw [List.cons_append, hstep]
        _ = c :: (u' ++ replaceFirst pat w v) := by
            rw [ih (fun u₂ h2 hsuf => hno u₂ h2
              (hsuf.trans (List.suffix_cons c u')))]
        _ = (c :: u') ++ replaceFirst pat w v := by simp

lemma replaceFirst_cons_neg {pat w : List Char} {c : Char} {s : List Char}
    (h : ¬ pat.isPrefixOf (c :: s) = true) :
    replaceFirst pat w (c :: s) = c :: replaceFirst pat w s := by
  conv_lhs => unfold replaceFirst
  rw [if_neg h]

lemma replaceFirst_cons_pos {pat w : List Char} {c : Char} {s : List Char}
    (h : pat.isPrefixOf (c :: s) = true) :
    replaceFirst pat w (c :: s) = w ++ (c :: s).drop pat.length := by
  conv_lhs => unfold replaceFirst
  rw [if_pos h]

lemma replaceFirst_prefix {pat w rest : List Char} (hne : pat ≠ []) :
    replaceFirst pat w (pat ++ rest) = w ++ rest := by
  cases hpat : pat with
  | nil => exact absurd hpat hne
  | cons pc pr =>
      rw [List.cons_append, replaceFirst_cons_pos (by
        apply List.isPrefixOf_iff_prefix.mpr
        exact ⟨rest, by simp⟩)]
      rw [← List.cons_append, show (pc :: pr).length = pat.length by rw [hpat],
        ← hpat, List.drop_left]

/-- Replacing the first occurrence of `pat` in `a ++ t ++ b` leaves the
distinguished copy of `t` intact when no occurrence of `pat` can overlap
`t`: `pat` is not contained in `t` nor `t` in `pat`, no nonempty proper
suffix of `pat` starts `t`, and no nonempty proper prefix of `pat` ends
`t`.  The prefix either stays unchanged or has one `pat` replaced. -/
lemma replaceFirst_split {pat w t : List Char} (hne : pat ≠ [])
    (c1 : ¬ pat <:+: t) (c2 : ¬ t <:+: pat)
    (c3 : ∀ p ∈ pat.tails, p ≠ [] → p ≠ pat → ¬ p <+: t)
    (c4 : ∀ p ∈ pat.inits, p ≠ [] → p ≠ pat → ¬ p <:+ t) :
    ∀ a b, ∃ a' b', replaceFirst pat w (a ++ (t ++ b)) = a' ++ (t ++ b') ∧
      (a' = a ∨ ∃ x y, a = x ++ pat ++ y ∧ a' = x ++ w ++ y) := by
  intro a
  induction a with
  | nil =>
      intro b
      refine ⟨[], replaceFirst pat w b, ?_, Or.inl rfl⟩
      simp only [List.nil_append]
      apply replaceFirst_append_left
      intro u₂ hne2 hsuf hpre
      have hpre' := List.isPrefixOf_iff_prefix.mp hpre
      by_cases hlen : pat.length ≤ u₂.length
      · have hpu : pat <+: u₂ := by
          have h1 := List.prefix_iff_eq_take.mp hpre'
          rw [List.take_append_of_le_length hlen] at h1
          exact h1 ▸ List.take_prefix _ _
        exact c1 (hpu.isInfix.trans hsuf.isInfix)
      · have hu2 : u₂ <+: pat :=
          List.prefix_of_prefix_length_le (List.prefix_append u₂ b) hpre'
            (by omega)
        by_cases heq : u₂ = pat
        · subst heq
          exact c1 hsuf.isInfix
        · exact c4 u₂ ((List.mem_inits _ _).mpr hu2) hne2 heq hsuf
  | cons c a₂ ih =>
      intro b
      by_cases hp : pat.isPrefixOf (c :: (a₂ ++ (t ++ b))) = true
      · have hpre := List.isPrefixOf_iff_prefix.mp hp
        by_cases hlen : pat.length ≤ (c :: a₂).length
        · have hpa : pat <+: (c :: a₂) := by
            have h1 := List.prefix_iff_eq_take.mp hpre
            rw [show (c :: (a₂ ++ (t ++ b))) = (c :: a₂) ++ (t ++ b) by simp]
              at h1
            rw [List.take_append_of_le_length hlen] at h1
            exact h1 ▸ List.take_prefix _ _
          obtain ⟨a₃, ha₃⟩ := hpa
          refine ⟨w ++ a₃, b, ?_, Or.inr ⟨[], a₃, by simp [← ha₃], by simp⟩⟩
          have hkey : c :: (a₂ ++ (t ++ b)) = pat ++ (a₃ ++ (t ++ b)) := by
            conv_rhs => rw [← List.append_assoc]
            rw [ha₃]
            simp
          rw [show (c :: a₂) ++ (t ++ b) = c :: (a₂ ++ (t ++ b)) by simp,
            hkey, replaceFirst_prefix hne]
          simp
        · have hal : (c :: a₂) <+: pat :=
            List.prefix_of_prefix_length_le
              (by
                have h0 : (c :: a₂) <+: ((c :: a₂) ++ (t ++ b)) :=
                  List.prefix_append _ _
                simpa using h0) hpre (by omega)
          obtain ⟨p₂, hp₂⟩ := hal
          have hp₂ne : p₂ ≠ [] := by
            intro h0
            rw [h0, List.append_nil] at hp₂
            exact hlen (by rw [← hp₂])
          have hp₂pre : p₂ <+: (t ++ b) := by
            obtain ⟨r, hr⟩ := hpre
            rw [← hp₂] at hr
            have hr2 : (c :: a₂) ++ (p₂ ++ r) = (c :: a₂) ++ (t ++ b) := by
              rw [← List.append_assoc, hr]
              simp
            exact ⟨r, List.append_cancel_left hr2⟩
          by_cases hlt : p₂.length ≤ t.length
          · have hpt : p₂ <+: t := by
              have h1 := List.prefix_iff_eq_take.mp hp₂pre
              rw [List.take_append_of_le_length hlt] at h1
              exact h1 ▸ List.take_prefix _ _
            have hp₂suf : p₂ <:+ pat := ⟨c :: a₂, hp₂⟩
            have : p₂ ≠ pat := by
              intro heq
              rw [heq] at hp₂
              have : (c :: a₂).length + pat.length = pat.length := by
                rw [← List.length_append, hp₂]
              simp at this
            exact absurd hpt (c3 p₂ ((List.mem_tails _ _).mpr hp₂suf)
              hp₂ne this)
          · have htp : t <+: p₂ :=
              List.prefix_of_prefix_length_le (List.prefix_append t b)
                hp₂pre (by omega)
            have : t <:+: pat := by
              have hsuf : p₂ <:+ pat := ⟨c :: a₂, hp₂⟩
              obtain ⟨u, hu⟩ := htp
              obtain ⟨v, hv⟩ := hsuf
              exact ⟨v, u, by rw [← hv, ← hu, List.append_assoc]⟩
            exact absurd this c2
      · obtain ⟨a₂', b', heq, hcase⟩ := ih b
        refine ⟨c :: a₂', b', ?_, ?_⟩
        · rw [show (c :: a₂) ++ (t ++ b) = c :: (a₂ ++ (t ++ b)) by simp,
            replaceFirst_cons_neg hp, heq]
          simp
        · rcases hcase with h | ⟨x, y, hxy, hxy'⟩
          · exact Or.inl (by rw [h])
          · exact Or.inr ⟨c :: x, y, by rw [hxy]; simp, by rw [hxy']; simp⟩

/-! Template strings are sequences of literal segments and `(category)`
placeholders; `Tok` makes that structure explicit so that the left-to-right
`str.replace(..., 1)` loop of `fill_sentence_structure` can be tracked. -/

inductive Tok where
  | plain (cs : List Char)
  | slot (cat : List Char)
deriving DecidableEq, Repr

def mkPat (cat : List Char) : List Char := braceL :: (cat ++ [braceR])

def flattenToks : List Tok → List Char
  | [] => []
  | .plain p :: rest => p ++ flattenToks rest
  | .slot c :: rest => mkPat c ++ flattenToks rest

def TokOk : Tok → Prop
  | .plain p => braceL ∉ p
  | .slot c => braceL ∉ c ∧ braceR ∉ c

/-- Replace the first `(cat)` placeholder by the literal word `w`. -/
def replaceSlot (cat w : List Char) : List Tok → List Tok
  | [] => []
  | .plain p :: rest => .plain p :: replaceSlot cat w rest
  | .slot c :: rest =>
      if c = cat then .plain w :: rest else .slot c :: replaceSlot cat w rest

lemma mkPat_ne_nil (cat : List Char) : mkPat cat ≠ [] := by
  simp [mkPat]

lemma append_brace_prefix {x : List Char} (hx : braceR ∉ x) :
    ∀ {y v : List Char}, braceR ∉ y →
      (x ++ [braceR]) <+: (y ++ [braceR] ++ v) → x = y := by
  induction x with
  | nil =>
      intro y v hy h
      cases y with
      | nil => rfl
      | cons b y' =>
          obtain ⟨r, hr⟩ := h
          simp only [List.nil_append, List.cons_append, List.singleton_append,
            List.cons.injEq] at hr
          exact absurd (by rw [hr.1]; exact List.mem_cons_self b y' : braceR ∈ b :: y') (by
            rw [← hr.1]
            intro hmem
            exact hy (hr.1 ▸ hmem))
  | cons a x' ih =>
      intro y v hy h
      cases y with
      | nil =>
          obtain ⟨r, hr⟩ := h
          simp only [List.cons_append, List.nil_append,
            List.cons.injEq] at hr
          exact absurd (hr.1 ▸ List.mem_cons_self a x') hx
      | cons b y' =>
          obtain ⟨r, hr⟩ := h
          simp only [List.cons_append, List.cons.injEq] at hr
          have hab : a = b := hr.1
          have htail : (x' ++ [braceR]) <+: (y' ++ [braceR] ++ v) :=
            ⟨r, by simpa using hr.2⟩
          rw [hab, ih (fun hm => hx (List.mem_cons_of_mem a hm))
            (fun hm => hy (List.mem_cons_of_mem b hm)) htail]

lemma mkPat_notPrefix {cat c : List Char} (hne : c ≠ cat)
    (hcat : braceR ∉ cat) (hc : braceR ∉ c) (v : List Char) :
    ¬ (mkPat cat).isPrefixOf (mkPat c ++ v) = true := by
  intro h
  have hpre := List.isPrefixOf_iff_prefix.mp h
  unfold mkPat at hpre
  rw [List.cons_append] at hpre
  have htail : (cat ++ [braceR]) <+: ((c ++ [braceR]) ++ v) := by
    obtain ⟨r, hr⟩ := hpre
    simp only [List.cons_append, List.cons.injEq] at hr
    exact ⟨r, by simpa using hr.2⟩
  have := append_brace_prefix hcat hc (by simpa using htail)
  exact hne this.symm

lemma infix_append_right_of_head {pat : List Char} {h0 : Char}
    (hhead : pat.head? = some h0) :
    ∀ {p v : List Char}, h0 ∉ p → pat <:+: (p ++ v) → pat <:+: v := by
  intro p
  induction p with
  | nil => intro v _ h; simpa using h
  | cons a p' ih =>
      intro v hmem h
      rw [List.cons_append] at h
      rcases List.infix_cons_iff.mp h with hp | hi
      · cases pat with
        | nil => cases hhead
        | cons pc rest =>
            obtain ⟨r, hr⟩ := hp
            simp only [List.cons_append, List.cons.injEq] at hr
            simp only [List.head?_cons, Option.some.injEq] at hhead
            exact absurd
              (by rw [← hhead, hr.1]; exact List.mem_cons_self a p') hmem
      · exact ih (fun hm => hmem (List.mem_cons_of_mem a hm)) hi

/-! ### Embedding of `text_generation.py`

Strings are `List Char`; the global `random` module is the explicit stream
`Rng`. The two `while` loops of `fill_sentence_structure` are embedded with
explicit fuel: the category loop runs at most once per `'\x7b'` in the string
(each `str.replace(.., .., 1)` consumes one placeholder and the inserted
words are brace-free), and the padding loop, entered only below length 50,
grows the string by at least one character per iteration, so fuel 50
suffices; both bounds are proved below. -/

def nounWords : List (List Char) :=
  ["time", "person", "year", "way", "day", "thing", "world", "life",
   "hand", "part", "child", "eye", "place", "work", "week", "case",
   "company", "system", "program", "question", "government", "number",
   "night", "point", "home", "water", "room", "mother", "area", "money",
   "story", "fact", "month", "lot", "right", "study", "book", "word",
   "business"].map String.toList

def verbWords : List (List Char) :=
  ["is", "are", "was", "were", "be", "been", "being", "have", "has",
   "had", "do", "does", "did", "done", "make", "makes", "made",
   "know", "thinks", "takes", "goes", "comes", "uses", "finds", "gives",
   "tells", "works", "likes", "needs", "feels", "becomes", "leaves",
   "puts", "means", "keeps", "lets", "begins", "seems", "helps", "shows",
   "plays"].map String.toList

def adjWords : List (List Char) :=
  ["good", "new", "first", "last", "long", "great", "little", "own",
   "other", "old", "right", "big", "high", "different", "small", "large",
   "early", "young", "important", "few", "public", "same", "able",
   "best", "better", "low", "certain", "special", "hard", "major",
   "personal", "current", "national", "natural", "physical", "strong",
   "possible", "clear"].map String.toList

def advWords : List (List Char) :=
  ["quickly", "slowly", "carefully", "happily", "sadly", "really",
   "very", "extremely", "quite", "rather", "almost", "nearly", "too",
   "also", "then", "however", "again", "still", "sometimes", "often",
   "usually", "always", "never", "ever", "perhaps", "especially",
   "actually", "clearly", "certainly", "absolutely",
   "completely"].map String.toList

def prepWords : List (List Char) :=
  ["in", "on", "with", "at", "by", "for", "from", "to", "of", "about",
   "between", "among", "through", "without", "before", "after",
   "during", "around", "beyond", "under", "over", "into", "against",
   "despite", "throughout", "within", "along", "upon",
   "beside"].map String.toList

def pronounWords : List (List Char) :=
  ["I", "you", "he", "she", "it", "we", "they", "me", "him", "her",
   "us", "them", "my", "your", "his", "her", "its", "our", "their",
   "mine", "yours", "hers", "ours", "theirs", "myself", "yourself",
   "himself", "herself", "itself", "ourselves",
   "themselves"].map String.toList

def detWords : List (List Char) :=
  ["the", "a", "an", "this", "that", "these", "those", "my", "your",
   "his", "her", "its", "our", "their", "some", "any", "each", "every",
   "many", "much", "few", "several", "all", "both", "either", "neither",
   "no", "another"].map String.toList

/-- The `parts` dict of `fill_sentence_structure`, in insertion order. -/
def categories : List (List Char × List (List Char)) :=
  [("noun".toList, nounWords), ("verb".toList, verbWords),
   ("adj".toList, adjWords), ("adv".toList, advWords),
   ("prep".toList, prepWords), ("pronoun".toList, pronounWords),
   ("det".toList, detWords)]

/-- The 14 structures of `generate_sentence_structure`. -/
def structures : List (List Char) :=
  ["The {adj} {noun} {verb} {adv} {prep} the {adj} {noun}.",
   "{det} {adj} {noun} {verb} {det} {adj} {noun} {prep} {det} {adj} {noun}.",
   "{pronoun} {adv} {verb} that {det} {noun} {verb} {adv} {prep} {det} {noun}.",
   "When {det} {adj} {noun} {verb} {adv}, {det} {adj} {noun} {verb} {prep} {det} {noun}.",
   "If {pronoun} {verb} {det} {adj} {noun}, {pronoun} will {verb} {det} {adj} {noun} {adv}.",
   "{det} {adj} {noun} {verb} to {verb} {prep} {det} {adj} {noun} {prep} {det} {noun}.",
   "{det} {noun} {verb} {adv}, but {det} {adj} {noun} {verb} {prep} {det} {adj} {noun}.",
   "Although {det} {noun} {verb} {adv}, {det} {adj} {noun} {verb} {prep} {det} {adj} {noun}.",
   "Not only {verb} {det} {adj} {noun} {adv}, but it also {verb} {prep} {det} {adj} {noun}.",
   "During {det} {adj} {noun}, {det} {adj} {noun} {verb} {adv} {prep} {det} {noun}.",
   "{det} {adj} {noun} {verb} {adv} because {det} {adj} {noun} {verb} {prep} {det} {noun}.",
   "{det} {noun} that {verb} {prep} {det} {adj} {noun} {adv} {verb} {det} {adj} {noun}.",
   "Why {verb} {det} {adj} {noun} {adv} {prep} {det} {adj} {noun}?",
   "How {adv} {verb} {det} {adj} {noun} {prep} {det} {adj} {noun}?"].map String.toList

/-- One pass of the body of the category `while` loop: draw a word, possibly
override it with the (not yet consumed) special word when the loop's category
matches `special_word_pos`. -/
def pickWord (g : Rng) (words : List (List Char))
    (special : Option (List Char)) (isCat : Bool) :
    List Char × Option (List Char) × Rng :=
  let (cw, g') := g.choice words
  match special with
  | some sw => if sw ≠ [] ∧ isCat = true then (sw, none, g') else (cw, some sw, g')
  | none => (cw, none, g')

/-- `while '\x7b'+category+'\x7d' in result: ... result.replace(..., word, 1)`. -/
def catWhileGo (cat : List Char) (words : List (List Char)) :
    ℕ → Rng → Option (List Char) → Bool → List Char →
    List Char × Option (List Char) × Rng
  | 0, g, sp, _, result => (result, sp, g)
  | fuel + 1, g, sp, isCat, result =>
      if isSubstr (mkPat cat) result then
        let (word, sp', g') := pickWord g words sp isCat
        catWhileGo cat words fuel g' sp' isCat
          (replaceFirst (mkPat cat) word result)
      else (result, sp, g)

def catWhile (cat : List Char) (words : List (List Char)) (g : Rng)
    (sp : Option (List Char)) (isCat : Bool) (result : List Char) :
    List Char × Option (List Char) × Rng :=
  catWhileGo cat words (result.count braceL) g sp isCat result

def extraSuffixes : List (List Char) :=
  ["indeed", "for sure", "without doubt", "as expected",
   "interestingly"].map String.toList

/-- The `while len(result) < 50` padding loop of `fill_sentence_structure`. -/
def padGo : ℕ → Rng → List Char → List Char × Rng
  | 0, g, r => (r, g)
  | fuel + 1, g, r =>
      if r.length < 50 then
        if isSubstr " the ".toList r then
          let (adj, g') := g.choice adjWords
          padGo fuel g' (replaceFirst " the ".toList (" the ".toList ++ adj ++ [' ']) r)
        else if isSubstr " a ".toList r then
          let (adj, g') := g.choice adjWords
          padGo fuel g' (replaceFirst " a ".toList (" a ".toList ++ adj ++ [' ']) r)
        else if r.getLast? = some '.' then
          let (sfx, g') := g.choice extraSuffixes
          (r.dropLast ++ [' '] ++ sfx ++ ['.'], g')
        else (r, g)
      else (r, g)

def padLoop (g : Rng) (r : List Char) : List Char × Rng := padGo 50 g r

def fillCatsGo : List (List Char × List (List Char)) → Rng →
    Option (List Char) → Option (List Char) → List Char →
    List Char × Option (List Char) × Rng
  | [], g, sp, _, r => (r, sp, g)
  | (cat, words) :: rest, g, sp, spPos, r =>
      let (r', sp', g') := catWhile cat words g sp (spPos == some cat) r
      fillCatsGo rest g' sp' spPos r'

/-- `fill_sentence_structure(structure, special_word, special_word_pos)`. -/
def fillSentenceStructure (tmpl : List Char)
    (sp spPos : Option (List Char)) (g : Rng) : List Char × Rng :=
  let (r, _, g') := fillCatsGo categories g sp spPos tmpl
  padLoop g' r

/-- Python `str.split()` (split on runs of spaces, dropping empty pieces). -/
def splitWsGo : List Char → List Char → List (List Char)
  | [], acc => if acc.isEmpty then [] else [acc.reverse]
  | c :: rest, acc =>
      if c = ' ' then
        if acc.isEmpty then splitWsGo rest []
        else acc.reverse :: splitWsGo rest []
      else splitWsGo rest (c :: acc)

def splitWs (s : List Char) : List (List Char) := splitWsGo s []

/-! ### Embedding of `generate_random_text_snippet` -/

/-- The five highlight structures built around a multi-word phrase
(`generate_random_text_snippet`, lines 142-148). -/
def hlStructures (hl : List Char) : List (List Char) :=
  ["The {adj} {noun} ".toList ++ hl ++ " {prep} {det} {adj} {noun}.".toList,
   "{det} {adj} {noun} {adv} ".toList ++ hl ++ " {prep} {det} {noun}.".toList,
   "When ".toList ++ hl ++ ", {det} {adj} {noun} {verb} {adv} {prep} {det} {noun}.".toList,
   "{pronoun} {verb} that ".toList ++ hl ++ " {verb} {adv} {prep} {det} {adj} {noun}.".toList,
   "Because of ".toList ++ hl ++ ", {det} {adj} {noun} {verb} {adv} {prep} {det} {noun}.".toList]

/-- The retry structure for short multi-word highlight lines (line 163). -/
def althoughStructure (hl : List Char) : List Char :=
  "Although {det} {adj} {noun} {verb} {adv}, ".toList ++ hl ++
    " {verb} {prep} {det} {adj} {noun}.".toList

def posOptions : List (List Char) := ["noun", "verb", "adj"].map String.toList

/-- Retry loop for a short multi-word highlight line (`attempts < 5`). -/
def hlRetryMulti (hl : List Char) : ℕ → Rng → List Char → List Char × Rng
  | 0, g, s => (s, g)
  | a + 1, g, s =>
      if s.length < 50 then
        let (s', g') := fillSentenceStructure (althoughStructure hl) none none g
        hlRetryMulti hl a g' s'
      else (s, g)

/-- Retry loop for a short single-word highlight line: a fresh structure is
drawn each attempt, with the same `special_pos`. -/
def hlRetrySingle (hl pos : List Char) : ℕ → Rng → List Char → List Char × Rng
  | 0, g, s => (s, g)
  | a + 1, g, s =>
      if s.length < 50 then
        let (st, g1) := g.choice structures
        let (s', g2) := fillSentenceStructure st (some hl) (some pos) g1
        hlRetrySingle hl pos a g2 s'
      else (s, g)

/-- Producing the highlighted line (lines 135-171). -/
def genHlLine (hl : List Char) (g : Rng) : List Char × Rng :=
  if isSubstr [' '] hl && decide (1 < (splitWs hl).length) then
    let (st, g1) := g.choice (hlStructures hl)
    let (s, g2) := fillSentenceStructure st none none g1
    hlRetryMulti hl 5 g2 s
  else
    let (pos, g1) := g.choice posOptions
    let (st, g2) := g1.choice structures
    let (s, g3) := fillSentenceStructure st (some hl) (some pos) g2
    hlRetrySingle hl pos 5 g3 s

/-- A non-highlighted line: `fill_sentence_structure(generate_sentence_structure())`. -/
def genNormalLine (g : Rng) : List Char × Rng :=
  let (st, g1) := g.choice structures
  fillSentenceStructure st none none g1

def normalRetry : ℕ → Rng → List Char → List Char × Rng
  | 0, g, s => (s, g)
  | a + 1, g, s =>
      if s.length < 50 then
        let (s', g') := genNormalLine g
        normalRetry a g' s'
      else (s, g)

/-- `for i in range(num_lines)` (lines 134-183): the highlighted line at
index `hlIdx`, normal lines elsewhere, each followed by its retry loop. -/
def buildLinesGo (hl : List Char) (hlIdx : ℕ) :
    ℕ → ℕ → Rng → List (List Char) × Rng
  | _, 0, g => ([], g)
  | i, n + 1, g =>
      let (line, g1) :=
        if i = hlIdx then genHlLine hl g
        else
          let (s, g') := genNormalLine g
          normalRetry 5 g' s
      let (rest, g2) := buildLinesGo hl hlIdx (i + 1) n g1
      (line :: rest, g2)

/-- `cut_point = 80; while cut_point > 0 and line[cut_point] != ' ': cut_point -= 1`. -/
def findCutPoint (line : List Char) : ℕ → ℕ
  | 0 => 0
  | k + 1 => if line.get? (k + 1) = some ' ' then k + 1 else findCutPoint line k

def extraPhrases : List (List Char) :=
  [" in the most unexpected way",
   " as we had anticipated earlier",
   " according to recent observations",
   " with remarkable precision and detail",
   " throughout the entire process",
   " despite previous contradicting evidence",
   " in this particular context"].map String.toList

/-- The per-line validation pass (lines 187-218): truncate lines over 80
characters at the last space if that leaves more than 50 characters, then
extend lines still under 50 characters that end in sentence punctuation. -/
def validateLine (g : Rng) (line : List Char) : List Char × Rng :=
  let line1 :=
    if 80 < line.length then
      let cp := findCutPoint line 80
      if 50 < cp then line.take cp ++ ['.'] else line
    else line
  if line1.length < 50 then
    match line1.getLast? with
    | some '.' =>
        let (e, g') := g.choice extraPhrases
        (line1.dropLast ++ e ++ ['.'], g')
    | some '?' =>
        let (e, g') := g.choice extraPhrases
        (line1.dropLast ++ e ++ ['?'], g')
    | some '!' =>
        let (e, g') := g.choice extraPhrases
        (line1.dropLast ++ e ++ ['!'], g')
    | _ => (line1, g)
  else (line1, g)

def validateLines (g : Rng) : List (List Char) → List (List Char) × Rng
  | [] => ([], g)
  | l :: rest =>
      let (l', g') := validateLine g l
      let (rest', g'') := validateLines g' rest
      (l' :: rest', g'')

/-- `generate_random_text_snippet(highlighted_text, min_lines, max_lines)`:
returns the final lines and the highlight index, or `none` for the
`(None, -1)` failure return. -/
def generateRandomTextSnippet (hl : List Char) (minLines maxLines : ℕ)
    (g : Rng) : Option (List (List Char) × ℕ) × Rng :=
  let (numLines, g1) := g.randint (max 1 minLines) (max minLines maxLines)
  let (hlIdx, g2) := g1.randint 0 (numLines - 1)
  let (lines, g3) := buildLinesGo hl hlIdx 0 numLines g2
  let (finalLines, g4) := validateLines g3 lines
  if finalLines.length < minLines then (none, g4)
  else (some (finalLines, hlIdx), g4)

/-! ### Embedding of the AI validation pass (`ai_providers.py` 209-241) -/

/-- The per-line quality filter of `generate_ai_text_snippet`. -/
def aiLineValid (line : List Char) : Bool :=
  decide (40 ≤ line.length) && decide (line.length ≤ 100) &&
  isSubstr [' '] line &&
  (isSubstr ['.'] line || isSubstr ['?'] line || isSubstr ['!'] line) &&
  !("#".toList.isPrefixOf line) &&
  !("```".toList.isPrefixOf line) &&
  !("---".toList.isPrefixOf line) &&
  line.any (fun c => c ≠ ' ') &&
  decide (5 ≤ (splitWs line).length)

/-- `new_highlight_index`: first filtered line containing the phrase. -/
def findHlIdx (hl : List Char) : List (List Char) → Option ℕ
  | [] => none
  | l :: rest =>
      if isSubstr hl l then some 0 else (findHlIdx hl rest).map (· + 1)

/-- Validation of a provider response `(lines, highlight_index)`; `none`
models every `(None, -1)` return. -/
def processAiValidation (hl : List Char) (minLines : ℕ)
    (res : Option (List (List Char) × ℤ)) : Option (List (List Char) × ℕ) :=
  match res with
  | none => none
  | some (lines, hlIdx) =>
      if lines ≠ [] ∧ hlIdx ≠ -1 then
        let valid := lines.filter aiLineValid
        if valid ≠ [] ∧ minLines ≤ valid.length then
          match findHlIdx hl valid with
          | some i => some (valid, i)
          | none => none
        else none
      else none

lemma mkPat_head (cat : List Char) : (mkPat cat).head? = some braceL := by
  simp [mkPat]

lemma braceL_ne_braceR : braceL ≠ braceR := by decide

lemma flatten_infix_iff {cat : List Char} (hcatR : braceR ∉ cat) :
    ∀ {tks : List Tok}, (∀ t ∈ tks, TokOk t) →
      (mkPat cat <:+: flattenToks tks ↔ Tok.slot cat ∈ tks) := by
  intro tks
  induction tks with
  | nil =>
      intro _
      simp only [flattenToks, List.not_mem_nil, iff_false]
      intro h
      exact mkPat_ne_nil cat (List.eq_nil_of_infix_nil h)
  | cons t rest ih =>
      intro hok
      have hokr : ∀ t ∈ rest, TokOk t := fun t ht =>
        hok t (List.mem_cons_of_mem _ ht)
      have ihr := ih hokr
      cases t with
      | plain p =>
          have hbp : braceL ∉ p := hok (.plain p) (List.mem_cons_self _ _)
          constructor
          · intro h
            rw [flattenToks] at h
            have := infix_append_right_of_head (mkPat_head cat) hbp h
            exact List.mem_cons_of_mem _ (ihr.mp this)
          · intro h
            rcases List.mem_cons.mp h with h | h
            · cases h
            · rw [flattenToks]
              exact (ihr.mpr h).trans (List.suffix_append p _).isInfix
      | slot c =>
          have hokc : braceL ∉ c ∧ braceR ∉ c :=
            hok (.slot c) (List.mem_cons_self _ _)
          by_cases hc : c = cat
          · subst hc
            simp only [List.mem_cons, Tok.slot.injEq, true_or, iff_true]
            rw [flattenToks]
            exact (List.prefix_append (mkPat c) _).isInfix
          · constructor
            · intro h
              rw [flattenToks] at h
              have hmk : mkPat c ++ flattenToks rest =
                  braceL :: ((c ++ [braceR]) ++ flattenToks rest) := by
                simp [mkPat]
              rw [hmk] at h
              rcases List.infix_cons_iff.mp h with hp | hi
              · exact absurd (List.isPrefixOf_iff_prefix.mpr (by
                    rw [show braceL :: ((c ++ [braceR]) ++ flattenToks rest) =
                      mkPat c ++ flattenToks rest from hmk.symm] at hp
                    exact hp))
                  (mkPat_notPrefix hc hcatR hokc.2 _)
              · have hnb : braceL ∉ c ++ [braceR] := by
                  intro hm
                  rcases List.mem_append.mp hm with hm | hm
                  · exact hokc.1 hm
                  · exact braceL_ne_braceR (by simpa using hm)
                have := infix_append_right_of_head (mkPat_head cat)
                  hnb hi
                exact List.mem_cons_of_mem _ (ihr.mp this)
            · intro h
              rcases List.mem_cons.mp h with h | h
              · injection h with h2
                exact absurd h2.symm hc
              · rw [flattenToks]
                exact (ihr.mpr h).trans (List.suffix_append (mkPat c) _).isInfix

lemma replaceFirst_flatten {cat w : List Char} (hcatR : braceR ∉ cat) :
    ∀ {tks : List Tok}, (∀ t ∈ tks, TokOk t) → Tok.slot cat ∈ tks →
      replaceFirst (mkPat cat) w (flattenToks tks) =
        flattenToks (replaceSlot cat w tks) := by
  intro tks
  induction tks with
  | nil => intro _ h; cases h
  | cons t rest ih =>
      intro hok hmem
      have hokr : ∀ t ∈ rest, TokOk t := fun t ht =>
        hok t (List.mem_cons_of_mem _ ht)
      cases t with
      | plain p =>
          have hbp : braceL ∉ p := hok (.plain p) (List.mem_cons_self _ _)
          have hmemr : Tok.slot cat ∈ rest := by
            rcases List.mem_cons.mp hmem with h | h
            · cases h
            · exact h
          rw [flattenToks, replaceSlot, flattenToks]
          rw [replaceFirst_append_left (fun u₂ h2 hsuf hpre => ?_),
            ih hokr hmemr]
          cases u₂ with
          | nil => exact h2 rfl
          | cons x u₃ =>
              obtain ⟨r, hr⟩ := List.isPrefixOf_iff_prefix.mp hpre
              rw [mkPat, List.cons_append, List.cons_append,
                List.cons.injEq] at hr
              exact hbp (hr.1 ▸ hsuf.subset (List.mem_cons_self x u₃))
      | slot c =>
          have hokc : braceL ∉ c ∧ braceR ∉ c :=
            hok (.slot c) (List.mem_cons_self _ _)
          by_cases hc : c = cat
          · subst hc
            rw [flattenToks, replaceSlot, if_pos rfl, flattenToks,
              replaceFirst_prefix (mkPat_ne_nil c)]
          · have hmemr : Tok.slot cat ∈ rest := by
              rcases List.mem_cons.mp hmem with h | h
              · injection h with h2
                exact absurd h2.symm hc
              · exact h
            have hmk : mkPat c ++ flattenToks rest =
                braceL :: ((c ++ [braceR]) ++ flattenToks rest) := by
              simp [mkPat]
            rw [flattenToks, replaceSlot, if_neg hc, flattenToks, hmk,
              replaceFirst_cons_neg (by
                rw [show braceL :: ((c ++ [braceR]) ++ flattenToks rest) =
                  mkPat c ++ flattenToks rest from hmk.symm]
                exact mkPat_notPrefix hc hcatR hokc.2 _),
              replaceFirst_append_left (fun u₂ h2 hsuf hpre => ?_),
              ih hokr hmemr]
            · simp [mkPat]
            · cases u₂ with
              | nil => exact h2 rfl
              | cons x u₃ =>
                  obtain ⟨r, hr⟩ := List.isPrefixOf_iff_prefix.mp hpre
                  rw [mkPat, List.cons_append, List.cons_append,
                    List.cons.injEq] at hr
                  have hx : braceL ∈ c ++ [braceR] :=
                    hr.1 ▸ hsuf.subset (List.mem_cons_self x u₃)
                  rcases List.mem_append.mp hx with hm | hm
                  · exact hokc.1 hm
                  · exact braceL_ne_braceR (by simpa using hm)

/-- One category pass: every `(cat)` slot becomes a word of `words`
(in the loop, the leftmost-first order; the relation forgets the order),
all other tokens stay. -/
inductive FillsCat (cat : List Char) (words : List (List Char)) :
    List Tok → List Tok → Prop
  | nil : FillsCat cat words [] []
  | keep (t : Tok) {r r' : List Tok} (h : t ≠ Tok.slot cat)
      (hr : FillsCat cat words r r') : FillsCat cat words (t :: r) (t :: r')
  | repl (w : List Char) {r r' : List Tok} (hw : w ∈ words)
      (hr : FillsCat cat words r r') :
      FillsCat cat words (Tok.slot cat :: r) (Tok.plain w :: r')

/-- The full `for category in parts` pass: every slot becomes a word of its
category's list. -/
inductive FillsAll : List Tok → List Tok → Prop
  | nil : FillsAll [] []
  | plain (p : List Char) {r r' : List Tok} (hr : FillsAll r r') :
      FillsAll (.plain p :: r) (.plain p :: r')
  | slot (c w : List Char) (ws : List (List Char))
      (hws : (c, ws) ∈ categories) (hw : w ∈ ws) {r r' : List Tok}
      (hr : FillsAll r r') : FillsAll (.slot c :: r) (.plain w :: r')

lemma fillsCat_refl {cat : List Char} {words : List (List Char)} :
    ∀ {tks : List Tok}, Tok.slot cat ∉ tks → FillsCat cat words tks tks := by
  intro tks
  induction tks with
  | nil => intro _; exact .nil
  | cons t r ih =>
      intro h
      exact .keep t (fun he => h (he ▸ List.mem_cons_self t r))
        (ih (fun hm => h (List.mem_cons_of_mem t hm)))

lemma fillsCat_of_replaceSlot {cat w : List Char} {words : List (List Char)}
    (hw : w ∈ words) :
    ∀ {tks tks' : List Tok}, Tok.slot cat ∈ tks →
      FillsCat cat words (replaceSlot cat w tks) tks' →
      FillsCat cat words tks tks' := by
  intro tks
  induction tks with
  | nil => intro _ h; cases h
  | cons t r ih =>
      intro tks' hmem hf
      cases t with
      | plain p =>
          rw [replaceSlot] at hf
          cases hf with
          | keep _ h hr =>
              exact .keep _ (by simp) (ih (by
                rcases List.mem_cons.mp hmem with h0 | h0
                · cases h0
                · exact h0) hr)
      | slot c =>
          by_cases hc : c = cat
          · subst hc
            rw [replaceSlot, if_pos rfl] at hf
            cases hf with
            | keep _ h hr => exact .repl w hw hr
          · rw [replaceSlot, if_neg hc] at hf
            cases hf with
            | keep _ h hr =>
                refine .keep _ h (ih ?_ hr)
                rcases List.mem_cons.mp hmem with h0 | h0
                · injection h0 with h1
                  exact absurd h1.symm hc
                · exact h0
            | repl w2 hw2 hr => exact absurd rfl hc

lemma replaceSlot_tokOk {cat w : List Char} (hw : braceL ∉ w) :
    ∀ {tks : List Tok}, (∀ t ∈ tks, TokOk t) →
      ∀ t ∈ replaceSlot cat w tks, TokOk t := by
  intro tks
  induction tks with
  | nil => intro _ t ht; cases ht
  | cons t0 r ih =>
      intro hok t ht
      have hokr : ∀ t ∈ r, TokOk t := fun t h =>
        hok t (List.mem_cons_of_mem _ h)
      cases t0 with
      | plain p =>
          rw [replaceSlot] at ht
          rcases List.mem_cons.mp ht with h | h
          · exact h ▸ hok (.plain p) (List.mem_cons_self _ _)
          · exact ih hokr t h
      | slot c =>
          rw [replaceSlot] at ht
          by_cases hc : c = cat
          · rw [if_pos hc] at ht
            rcases List.mem_cons.mp ht with h | h
            · exact h ▸ hw
            · exact hokr t h
          · rw [if_neg hc] at ht
            rcases List.mem_cons.mp ht with h | h
            · exact h ▸ hok (.slot c) (List.mem_cons_self _ _)
            · exact ih hokr t h

lemma replaceSlot_count {cat w : List Char} :
    ∀ {tks : List Tok}, Tok.slot cat ∈ tks →
      (replaceSlot cat w tks).count (Tok.slot cat) + 1 =
        tks.count (Tok.slot cat) := by
  intro tks
  induction tks with
  | nil => intro h; cases h
  | cons t0 r ih =>
      intro hmem
      cases t0 with
      | plain p =>
          have hmemr : Tok.slot cat ∈ r := by
            rcases List.mem_cons.mp hmem with h | h
            · cases h
            · exact h
          have hcount := ih hmemr
          rw [replaceSlot]
          simp only [List.count_cons]
          omega
      | slot c =>
          by_cases hc : c = cat
          · subst hc
            rw [replaceSlot, if_pos rfl, List.count_cons, List.count_cons]
            simp
          · have hmemr : Tok.slot cat ∈ r := by
              rcases List.mem_cons.mp hmem with h | h
              · injection h with h1
                exact absurd h1.symm hc
              · exact h
            have hcount := ih hmemr
            rw [replaceSlot, if_neg hc]
            simp only [List.count_cons]
            omega

lemma fillsCat_slot_sub {cat c : List Char} {words : List (List Char)} :
    ∀ {t t' : List Tok}, FillsCat cat words t t' → Tok.slot c ∈ t' →
      Tok.slot c ∈ t := by
  intro t t' hf
  induction hf with
  | nil => intro h; cases h
  | keep t0 h hr ih =>
      intro hm
      rcases List.mem_cons.mp hm with h0 | h0
      · exact h0 ▸ List.mem_cons_self _ _
      · exact List.mem_cons_of_mem _ (ih h0)
  | repl w hw hr ih =>
      intro hm
      rcases List.mem_cons.mp hm with h0 | h0
      · cases h0
      · exact List.mem_cons_of_mem _ (ih h0)

lemma fillsAll_refl :
    ∀ {tks : List Tok}, (∀ c, Tok.slot c ∉ tks) → FillsAll tks tks := by
  intro tks
  induction tks with
  | nil => intro _; exact .nil
  | cons t r ih =>
      intro h
      cases t with
      | plain p =>
          exact .plain p (ih (fun c hm => h c (List.mem_cons_of_mem _ hm)))
      | slot c => exact absurd (List.mem_cons_self _ _) (h c)

lemma fillsCat_fillsAll_trans {cat : List Char} {words : List (List Char)}
    (hcw : (cat, words) ∈ categories) :
    ∀ {t1 t2 t3 : List Tok}, FillsCat cat words t1 t2 → FillsAll t2 t3 →
      FillsAll t1 t3 := by
  intro t1 t2 t3 hf
  induction hf generalizing t3 with
  | nil => intro h; exact h
  | keep t0 h hr ih =>
      intro hall
      cases t0 with
      | plain p =>
          cases hall with
          | plain _ hr2 => exact .plain p (ih hr2)
      | slot c =>
          cases hall with
          | slot _ w ws hws hw hr2 => exact .slot c w ws hws hw (ih hr2)
  | repl w hw hr ih =>
      intro hall
      cases hall with
      | plain _ hr2 => exact .slot cat w words hcw hw (ih hr2)

lemma choice_fst_mem {l : List (List Char)} (h : l ≠ []) (g : Rng) :
    (g.choice l).1 ∈ l := by
  unfold Rng.choice Rng.next
  have hlen : 0 < l.length := List.length_pos.mpr h
  have hlt : g.stream g.pos % l.length < l.length := Nat.mod_lt _ hlen
  simp only [List.getD_eq_getElem?_getD]
  rw [List.getElem?_eq_getElem hlt]
  exact List.getElem_mem hlt

lemma count_braceL_flatten :
    ∀ {tks : List Tok}, (∀ t ∈ tks, TokOk t) →
      (flattenToks tks).count braceL =
        tks.countP (fun t => match t with | .slot _ => true | _ => false) := by
  intro tks
  induction tks with
  | nil => intro _; rfl
  | cons t r ih =>
      intro hok
      have hokr : ∀ t ∈ r, TokOk t := fun t h =>
        hok t (List.mem_cons_of_mem _ h)
      cases t with
      | plain p =>
          have hbp : braceL ∉ p := hok (.plain p) (List.mem_cons_self _ _)
          rw [flattenToks, List.count_append, List.count_eq_zero.mpr hbp,
            ih hokr, List.countP_cons]
          simp
      | slot c =>
          have hokc : braceL ∉ c ∧ braceR ∉ c :=
            hok (.slot c) (List.mem_cons_self _ _)
          rw [flattenToks, List.count_append, ih hokr, List.countP_cons]
          have hpat : (mkPat c).count braceL = 1 := by
            rw [mkPat, List.count_cons, List.count_append,
              List.count_eq_zero.mpr hokc.1]
            simp [braceL_ne_braceR]
          rw [hpat]
          simp [Nat.add_comm]

lemma slotcount_le_countP (cat : List Char) :
    ∀ tks : List Tok, tks.count (Tok.slot cat) ≤
      tks.countP (fun t => match t with | .slot _ => true | _ => false) := by
  intro tks
  induction tks with
  | nil => simp
  | cons t r ih =>
      rw [List.count_cons, List.countP_cons]
      cases t with
      | plain p => simp [ih]
      | slot c =>
          by_cases hc : Tok.slot c = Tok.slot cat <;> simp [hc] <;> omega

lemma pickWord_none (g : Rng) (words : List (List Char)) (isCat : Bool) :
    pickWord g words none isCat =
      ((g.choice words).1, none, (g.choice words).2) := rfl

lemma catWhileGo_flatten {cat : List Char} {words : List (List Char)}
    (hcatR : braceR ∉ cat) (hw : ∀ w ∈ words, braceL ∉ w)
    (hwne : words ≠ []) :
    ∀ n {tks : List Tok} fuel (g : Rng) (isCat : Bool),
      (∀ t ∈ tks, TokOk t) → tks.count (Tok.slot cat) = n → n ≤ fuel →
      ∃ tks' g', FillsCat cat words tks tks' ∧ Tok.slot cat ∉ tks' ∧
        (∀ t ∈ tks', TokOk t) ∧
        catWhileGo cat words fuel g none isCat (flattenToks tks) =
          (flattenToks tks', none, g') := by
  intro n
  induction n with
  | zero =>
      intro tks fuel g isCat hok hcount _
      have hnot : Tok.slot cat ∉ tks := List.count_eq_zero.mp hcount
      have hguard : isSubstr (mkPat cat) (flattenToks tks) = false := by
        rw [Bool.eq_false_iff]
        intro h
        exact hnot ((flatten_infix_iff hcatR hok).mp
          ((isSubstr_infix_iff _ _).mp h))
      refine ⟨tks, g, fillsCat_refl hnot, hnot, hok, ?_⟩
      cases fuel with
      | zero => rfl
      | succ f => rw [catWhileGo, hguard]; rfl
  | succ m ih =>
      intro tks fuel g isCat hok hcount hfuel
      have hmem : Tok.slot cat ∈ tks :=
        List.count_pos_iff_mem.mp (by omega)
      have hguard : isSubstr (mkPat cat) (flattenToks tks) = true :=
        (isSubstr_infix_iff _ _).mpr ((flatten_infix_iff hcatR hok).mpr hmem)
      cases fuel with
      | zero => omega
      | succ f =>
          set cw := (g.choice words).1 with hcw
          have hcwmem : cw ∈ words := choice_fst_mem hwne g
          have hcwb : braceL ∉ cw := hw cw hcwmem
          have hok2 : ∀ t ∈ replaceSlot cat cw tks, TokOk t :=
            replaceSlot_tokOk hcwb hok
          have hcount2 : (replaceSlot cat cw tks).count (Tok.slot cat) = m := by
            have := @replaceSlot_count cat cw _ hmem
            omega
          obtain ⟨tks', g', hfill, hnot', hok', heq⟩ :=
            ih f ((g.choice words).2) isCat hok2 hcount2 (by omega)
          refine ⟨tks', g', fillsCat_of_replaceSlot hcwmem hmem hfill,
            hnot', hok', ?_⟩
          rw [catWhileGo, hguard]
          simp only [pickWord_none]
          rw [replaceFirst_flatten hcatR hok hmem]
          exact heq

lemma categories_ok : ∀ p ∈ categories,
    braceR ∉ p.1 ∧ (∀ w ∈ p.2, braceL ∉ w) ∧ p.2 ≠ [] := by decide

lemma catWhile_flatten {cat : List Char} {words : List (List Char)}
    (hcatR : braceR ∉ cat) (hw : ∀ w ∈ words, braceL ∉ w)
    (hwne : words ≠ []) {tks : List Tok} (g : Rng) (isCat : Bool)
    (hok : ∀ t ∈ tks, TokOk t) :
    ∃ tks' g', FillsCat cat words tks tks' ∧ Tok.slot cat ∉ tks' ∧
      (∀ t ∈ tks', TokOk t) ∧
      catWhile cat words g none isCat (flattenToks tks) =
        (flattenToks tks', none, g') := by
  have hfuel : tks.count (Tok.slot cat) ≤ (flattenToks tks).count braceL := by
    rw [count_braceL_flatten hok]
    exact slotcount_le_countP cat tks
  exact catWhileGo_flatten hcatR hw hwne _ _ g isCat hok rfl hfuel

lemma fillCatsGo_flatten :
    ∀ (cs : List (List Char × List (List Char))), (∀ p ∈ cs, p ∈ categories) →
      ∀ {tks : List Tok} (g : Rng) (spPos : Option (List Char)),
      (∀ t ∈ tks, TokOk t) →
      (∀ c, Tok.slot c ∈ tks → c ∈ cs.map Prod.fst) →
      ∃ tks' g', FillsAll tks tks' ∧ (∀ c, Tok.slot c ∉ tks') ∧
        fillCatsGo cs g none spPos (flattenToks tks) =
          (flattenToks tks', none, g') := by
  intro cs
  induction cs with
  | nil =>
      intro _ tks g spPos hok hkeys
      have hnone : ∀ c, Tok.slot c ∉ tks := by
        intro c hc
        simpa using hkeys c hc
      exact ⟨tks, g, fillsAll_refl hnone, hnone, rfl⟩
  | cons p cs' ih =>
      intro hsub tks g spPos hok hkeys
      obtain ⟨cat, words⟩ := p
      have hmemcat : (cat, words) ∈ categories :=
        hsub _ (List.mem_cons_self _ _)
      obtain ⟨hcatR, hw, hwne⟩ := categories_ok _ hmemcat
      obtain ⟨tks₂, g₂, hfc, hnot₂, hok₂, heq₂⟩ :=
        catWhile_flatten hcatR hw hwne g (spPos == some cat) hok
      have hkeys₂ : ∀ c, Tok.slot c ∈ tks₂ → c ∈ cs'.map Prod.fst := by
        intro c hc
        have hin := hkeys c (fillsCat_slot_sub hfc hc)
        simp only [List.map_cons] at hin
        rcases List.mem_cons.mp hin with h | h
        · exact absurd (h ▸ hc) hnot₂
        · exact h
      obtain ⟨tks', g', hall, hnone, heq⟩ :=
        ih (fun q hq => hsub q (List.mem_cons_of_mem _ hq)) g₂ spPos hok₂
          hkeys₂
      refine ⟨tks', g', fillsCat_fillsAll_trans hmemcat hfc hall, hnone, ?_⟩
      rw [fillCatsGo, heq₂]
      exact heq

lemma flattenToks_append : ∀ t₁ t₂ : List Tok,
    flattenToks (t₁ ++ t₂) = flattenToks t₁ ++ flattenToks t₂ := by
  intro t₁ t₂
  induction t₁ with
  | nil => rfl
  | cons t r ih =>
      cases t with
      | plain p => rw [List.cons_append, flattenToks, flattenToks, ih]; simp
      | slot c => rw [List.cons_append, flattenToks, flattenToks, ih]; simp

lemma fillsAll_cons_plain {p : List Char} {t r : List Tok}
    (h : FillsAll (.plain p :: t) r) :
    ∃ r', r = .plain p :: r' ∧ FillsAll t r' := by
  cases h with
  | plain _ hr => exact ⟨_, rfl, hr⟩

lemma fillsAll_append :
    ∀ {t₁ t₂ r : List Tok}, FillsAll (t₁ ++ t₂) r →
      ∃ r₁ r₂, r = r₁ ++ r₂ ∧ FillsAll t₁ r₁ ∧ FillsAll t₂ r₂ := by
  intro t₁
  induction t₁ with
  | nil => intro t₂ r h; exact ⟨[], r, rfl, .nil, h⟩
  | cons t rest ih =>
      intro t₂ r h
      rw [List.cons_append] at h
      cases h with
      | plain p hr =>
          obtain ⟨r₁, r₂, rfl, h1, h2⟩ := ih hr
          exact ⟨.plain p :: r₁, r₂, rfl, .plain p h1, h2⟩
      | slot c w ws hws hw hr =>
          obtain ⟨r₁, r₂, rfl, h1, h2⟩ := ih hr
          exact ⟨.plain w :: r₁, r₂, rfl, .slot c w ws hws hw h1, h2⟩

/-- Lower bound on the lengths of the words in one category. -/
def catLenLo (c : List Char) : ℕ :=
  if c = "noun".toList then 3
  else if c = "verb".toList then 2
  else if c = "adj".toList then 3
  else if c = "adv".toList then 3
  else if c = "prep".toList then 2
  else if c = "pronoun".toList then 1
  else if c = "det".toList then 1
  else 0

/-- Upper bound on the lengths of the words in one category. -/
def catLenHi (c : List Char) : ℕ :=
  if c = "noun".toList then 10
  else if c = "verb".toList then 7
  else if c = "adj".toList then 9
  else if c = "adv".toList then 10
  else if c = "prep".toList then 10
  else if c = "pronoun".toList then 10
  else if c = "det".toList then 7
  else 1000

lemma cat_word_len {c : List Char} {ws : List (List Char)}
    (hws : (c, ws) ∈ categories) :
    ∀ w ∈ ws, catLenLo c ≤ w.length ∧ w.length ≤ catLenHi c := by
  fin_cases hws <;> decide

/-- Smallest possible length of any instantiation of a token list. -/
def minLen : List Tok → ℕ
  | [] => 0
  | .plain p :: r => p.length + minLen r
  | .slot c :: r => catLenLo c + minLen r

/-- Largest possible length of any instantiation of a token list. -/
def maxLen : List Tok → ℕ
  | [] => 0
  | .plain p :: r => p.length + maxLen r
  | .slot c :: r => catLenHi c + maxLen r

lemma fillsAll_len {t t' : List Tok} (h : FillsAll t t') :
    minLen t ≤ (flattenToks t').length ∧
      (flattenToks t').length ≤ maxLen t := by
  induction h with
  | nil => simp [flattenToks, minLen, maxLen]
  | plain p hr ih =>
      rw [minLen, maxLen, flattenToks, List.length_append]
      omega
  | slot c w ws hws hw hr ih =>
      have hlen := cat_word_len hws w hw
      rw [minLen, maxLen, flattenToks, List.length_append]
      omega

/-- The no-overlap conditions of `replaceFirst_split`, packaged. -/
def SplitOk (pat t : List Char) : Prop :=
  ¬ pat <:+: t ∧ ¬ t <:+: pat ∧
  (∀ p ∈ pat.tails, p ≠ [] → p ≠ pat → ¬ p <+: t) ∧
  (∀ p ∈ pat.inits, p ≠ [] → p ≠ pat → ¬ p <:+ t)

lemma padGo_done {fuel : ℕ} {g : Rng} {r : List Char}
    (h : ¬ r.length < 50) : padGo (fuel + 1) g r = (r, g) := by
  rw [padGo, if_neg h]

lemma padGo_the {fuel : ℕ} {g : Rng} {r : List Char}
    (h1 : r.length < 50) (h2 : isSubstr " the ".toList r = true) :
    padGo (fuel + 1) g r =
      padGo fuel (g.choice adjWords).2
        (replaceFirst " the ".toList
          (" the ".toList ++ (g.choice adjWords).1 ++ [' ']) r) := by
  rw [padGo, if_pos h1, if_pos h2]

lemma padGo_a {fuel : ℕ} {g : Rng} {r : List Char}
    (h1 : r.length < 50) (h2 : isSubstr " the ".toList r = false)
    (h3 : isSubstr " a ".toList r = true) :
    padGo (fuel + 1) g r =
      padGo fuel (g.choice adjWords).2
        (replaceFirst " a ".toList
          (" a ".toList ++ (g.choice adjWords).1 ++ [' ']) r) := by
  rw [padGo, if_pos h1,
    if_neg (show ¬ isSubstr " the ".toList r = true from
      fun hc => Bool.false_ne_true (h2 ▸ hc)),
    if_pos h3]

lemma padGo_dot {fuel : ℕ} {g : Rng} {r : List Char}
    (h1 : r.length < 50) (h2 : isSubstr " the ".toList r = false)
    (h3 : isSubstr " a ".toList r = false) (h4 : r.getLast? = some '.') :
    padGo (fuel + 1) g r =
      (r.dropLast ++ [' '] ++ (g.choice extraSuffixes).1 ++ ['.'],
        (g.choice extraSuffixes).2) := by
  rw [padGo, if_pos h1,
    if_neg (show ¬ isSubstr " the ".toList r = true from
      fun hc => Bool.false_ne_true (h2 ▸ hc)),
    if_neg (show ¬ isSubstr " a ".toList r = true from
      fun hc => Bool.false_ne_true (h3 ▸ hc)),
    if_pos h4]

lemma adjWords_len : ∀ w ∈ adjWords, 3 ≤ w.length ∧ w.length ≤ 9 := by
  decide

lemma extraSuffixes_len : ∀ w ∈ extraSuffixes,
    6 ≤ w.length ∧ w.length ≤ 13 := by decide

lemma padGo_spec {hl : List Char}
    (hthe : SplitOk " the ".toList hl) (hA : SplitOk " a ".toList hl) :
    ∀ (a b : List Char) (g : Rng), b ≠ [] →
      48 ≤ (a ++ (hl ++ b)).length →
      (a ++ (hl ++ b)).getLast? = some '.' →
      ∃ a' b' g', padLoop g (a ++ (hl ++ b)) = (a' ++ (hl ++ b'), g') ∧
        50 ≤ (a' ++ (hl ++ b')).length ∧
        (a' ++ (hl ++ b')).length ≤ max (a ++ (hl ++ b)).length 63 ∧
        (50 ≤ (a ++ (hl ++ b)).length → a' = a ∧ b' = b) := by
  obtain ⟨t1, t2, t3, t4⟩ := hthe
  obtain ⟨u1, u2, u3, u4⟩ := hA
  intro a b g hb hlen hlast
  by_cases h50 : 50 ≤ (a ++ (hl ++ b)).length
  · refine ⟨a, b, g, ?_, h50, le_max_left _ _, fun _ => ⟨rfl, rfl⟩⟩
    show padGo 50 g _ = _
    rw [show (50:ℕ) = 49 + 1 from rfl, padGo_done (by omega)]
  · have hlt : (a ++ (hl ++ b)).length < 50 := by omega
    by_cases hthe1 : isSubstr " the ".toList (a ++ (hl ++ b)) = true
    · have hinf : " the ".toList <:+: (a ++ (hl ++ b)) :=
        (isSubstr_infix_iff _ _).mp hthe1
      set adj := (g.choice adjWords).1 with hadj
      have hadjlen : 3 ≤ adj.length ∧ adj.length ≤ 9 :=
        adjWords_len adj (choice_fst_mem (by decide) g)
      obtain ⟨a', b', heq, _⟩ :=
        replaceFirst_split (w := " the ".toList ++ adj ++ [' '])
          (by decide) t1 t2 t3 t4 a b
      have h0 := @replaceFirst_length " the ".toList
        (" the ".toList ++ adj ++ [' ']) (by decide) _ hinf
      rw [heq] at h0
      have hkey : (a' ++ (hl ++ b')).length =
          (a ++ (hl ++ b)).length + adj.length + 1 := by
        simp only [List.length_append, List.length_cons,
          List.length_nil] at h0 ⊢
        omega
      refine ⟨a', b', (g.choice adjWords).2, ?_, by omega, by omega,
        fun hcon => absurd hcon h50⟩
      show padGo 50 g _ = _
      rw [show (50:ℕ) = 49 + 1 from rfl, padGo_the hlt hthe1, heq,
        show (49:ℕ) = 48 + 1 from rfl, padGo_done (by omega)]
    · by_cases hA1 : isSubstr " a ".toList (a ++ (hl ++ b)) = true
      · have hinf : " a ".toList <:+: (a ++ (hl ++ b)) :=
          (isSubstr_infix_iff _ _).mp hA1
        set adj := (g.choice adjWords).1 with hadj
        have hadjlen : 3 ≤ adj.length ∧ adj.length ≤ 9 :=
          adjWords_len adj (choice_fst_mem (by decide) g)
        obtain ⟨a', b', heq, _⟩ :=
          replaceFirst_split (w := " a ".toList ++ adj ++ [' '])
            (by decide) u1 u2 u3 u4 a b
        have h0 := @replaceFirst_length " a ".toList
          (" a ".toList ++ adj ++ [' ']) (by decide) _ hinf
        rw [heq] at h0
        have hkey : (a' ++ (hl ++ b')).length =
            (a ++ (hl ++ b)).length + adj.length + 1 := by
          simp only [List.length_append, List.length_cons,
            List.length_nil] at h0 ⊢
          omega
        have hthe0 : isSubstr " the ".toList (a ++ (hl ++ b)) = false := by
          simpa using hthe1
        refine ⟨a', b', (g.choice adjWords).2, ?_, by omega, by omega,
          fun hcon => absurd hcon h50⟩
        show padGo 50 g _ = _
        rw [show (50:ℕ) = 49 + 1 from rfl, padGo_a hlt hthe0 hA1, heq,
          show (49:ℕ) = 48 + 1 from rfl, padGo_done (by omega)]
      · have hthe0 : isSubstr " the ".toList (a ++ (hl ++ b)) = false := by
          simpa using hthe1
        have hA0 : isSubstr " a ".toList (a ++ (hl ++ b)) = false := by
          simpa using hA1
        set sfx := (g.choice extraSuffixes).1 with hsfx
        have hsfxlen : 6 ≤ sfx.length ∧ sfx.length ≤ 13 :=
          extraSuffixes_len sfx (choice_fst_mem (by decide) g)
        have hdrop : (a ++ (hl ++ b)).dropLast = a ++ (hl ++ b.dropLast) := by
          rw [List.dropLast_append_of_ne_nil a (by simp [hb]),
            List.dropLast_append_of_ne_nil hl hb]
        have hblen : 1 ≤ b.length := List.length_pos.mpr hb
        have hkey : (a ++ (hl ++ (b.dropLast ++ [' '] ++ sfx ++ ['.']))).length
            = (a ++ (hl ++ b)).length + sfx.length + 1 := by
          simp only [List.length_append, List.length_dropLast,
            List.length_cons, List.length_nil]
          omega
        refine ⟨a, b.dropLast ++ [' '] ++ sfx ++ ['.'],
          (g.choice extraSuffixes).2, ?_, by omega, by omega,
          fun hcon => absurd hcon h50⟩
        show padGo 50 g _ = _
        rw [show (50:ℕ) = 49 + 1 from rfl,
          padGo_dot hlt hthe0 hA0 hlast, hdrop]
        simp

lemma fillsAll_nil_inv {r : List Tok} (h : FillsAll [] r) : r = [] := by
  cases h
  rfl

/-- Filling any highlight template `pre ++ (u ++ hl ++ v) ++ post` (with the
phrase `hl` inside a literal segment, a space in `v` just after it, and the
template ending in a literal finishing with `'.'`) yields a sentence that
still contains `hl`, is at least 50 characters long, and — when longer than
80 characters — has a space between the end of `hl` and position 80. -/
lemma fill_hl_template {hl : List Char} (pre postInit : List Tok)
    (u v pl : List Char) (j : ℕ)
    (hthe : SplitOk " the ".toList hl) (hA : SplitOk " a ".toList hl)
    (hok : ∀ t ∈ pre ++ .plain (u ++ (hl ++ v)) ::
      (postInit ++ [.plain pl]), TokOk t)
    (hkeys : ∀ c, Tok.slot c ∈ pre ++ .plain (u ++ (hl ++ v)) ::
      (postInit ++ [.plain pl]) → c ∈ categories.map Prod.fst)
    (hmin : 48 ≤ minLen (pre ++ .plain (u ++ (hl ++ v)) ::
      (postInit ++ [.plain pl])))
    (hjv : v.get? j = some ' ')
    (hq80 : maxLen pre + u.length + hl.length + j ≤ 80)
    (hpl : pl.getLast? = some '.')
    (g : Rng) (spPos : Option (List Char)) :
    ∃ a b g', fillSentenceStructure
        (flattenToks (pre ++ .plain (u ++ (hl ++ v)) ::
          (postInit ++ [.plain pl]))) none spPos g = (a ++ (hl ++ b), g') ∧
      50 ≤ (a ++ (hl ++ b)).length ∧
      (80 < (a ++ (hl ++ b)).length →
        ∃ q, a.length + hl.length ≤ q ∧ q ≤ 80 ∧
          (a ++ (hl ++ b)).get? q = some ' ') := by
  obtain ⟨tks', g₂, hall, hnoslot, heqFill⟩ :=
    fillCatsGo_flatten categories (fun p hp => hp) g spPos hok hkeys
  obtain ⟨r1, r2, rfl, hf1, hf2⟩ := fillsAll_append hall
  obtain ⟨r3, rfl, hf3⟩ := fillsAll_cons_plain hf2
  obtain ⟨r4, r5, rfl, hf4, hf5⟩ := fillsAll_append hf3
  obtain ⟨r6, rfl, hf6⟩ := fillsAll_cons_plain hf5
  have hr6 : r6 = [] := fillsAll_nil_inv hf6
  subst hr6
  have hplne : pl ≠ [] := by
    intro h0
    rw [h0] at hpl
    cases hpl
  set A := flattenToks r1 with hA1
  set C := flattenToks r4 with hC1
  have hshape : flattenToks (r1 ++ .plain (u ++ (hl ++ v)) ::
      (r4 ++ [.plain pl])) =
      (A ++ u) ++ (hl ++ (v ++ (C ++ pl))) := by
    simp only [flattenToks_append, flattenToks]
    simp [List.append_assoc]
  have hfill : fillSentenceStructure
      (flattenToks (pre ++ .plain (u ++ (hl ++ v)) ::
        (postInit ++ [.plain pl]))) none spPos g =
      padLoop g₂ ((A ++ u) ++ (hl ++ (v ++ (C ++ pl)))) := by
    unfold fillSentenceStructure
    rw [heqFill, hshape]
  have hlen48 : 48 ≤ ((A ++ u) ++ (hl ++ (v ++ (C ++ pl)))).length := by
    have h1 := (fillsAll_len hall).1
    rw [hshape] at h1
    omega
  have hAmax : A.length ≤ maxLen pre := (fillsAll_len hf1).2
  have hbne : v ++ (C ++ pl) ≠ [] := by simp [hplne]
  have hlast : ((A ++ u) ++ (hl ++ (v ++ (C ++ pl)))).getLast? =
      some '.' := by
    rw [List.getLast?_append_of_ne_nil (A ++ u) (by simp [hplne]),
      List.getLast?_append_of_ne_nil hl hbne,
      List.getLast?_append_of_ne_nil v (by simp [hplne]),
      List.getLast?_append_of_ne_nil C hplne]
    exact hpl
  obtain ⟨a', b', g₃, hpad, h50, hmax, hid⟩ :=
    padGo_spec hthe hA (A ++ u) (v ++ (C ++ pl)) g₂ hbne hlen48 hlast
  refine ⟨a', b', g₃, by rw [hfill, hpad], h50, ?_⟩
  intro h80
  have hnopad : 50 ≤ ((A ++ u) ++ (hl ++ (v ++ (C ++ pl)))).length := by
    rcases le_or_lt ((A ++ u) ++ (hl ++ (v ++ (C ++ pl)))).length 63 with
      h | h
    · have := le_trans hmax (max_le h (le_refl 63))
      omega
    · omega
  obtain ⟨ha', hb'⟩ := hid hnopad
  subst ha'
  subst hb'
  have hjlt : j < v.length := by
    rcases List.get?_eq_some.mp hjv with ⟨h, _⟩
    exact h
  refine ⟨(A ++ u).length + hl.length + j, by omega, ?_, ?_⟩
  · simp only [List.length_append]
    omega
  · rw [← List.append_assoc]
    rw [List.get?_append_right (by simp only [List.length_append]; omega)]
    have hq : (A ++ u).length + hl.length + j -
        ((A ++ u) ++ hl).length = j := by
      simp only [List.length_append]
      omega
    rw [hq, List.get?_append hjlt]
    exact hjv

instance : DecidablePred TokOk := fun t =>
  match t with
  | .plain p => inferInstanceAs (Decidable (braceL ∉ p))
  | .slot c => inferInstanceAs (Decidable (braceL ∉ c ∧ braceR ∉ c))

def tokKeyOk (t : Tok) : Bool :=
  match t with
  | .plain _ => true
  | .slot c => decide (c ∈ categories.map Prod.fst)

lemma keys_of_bool {tks : List Tok} (h : ∀ t ∈ tks, tokKeyOk t = true) :
    ∀ c, Tok.slot c ∈ tks → c ∈ categories.map Prod.fst := by
  intro c hc
  have h2 := h _ hc
  rw [tokKeyOk] at h2
  exact of_decide_eq_true h2

/-- The phrase of end-to-end scenario B. -/
def hlBGE : List Char := "Better Gaming Experience".toList

def slotN : Tok := .slot "noun".toList
def slotV : Tok := .slot "verb".toList
def slotAdj : Tok := .slot "adj".toList
def slotAdv : Tok := .slot "adv".toList
def slotP : Tok := .slot "prep".toList
def slotPro : Tok := .slot "pronoun".toList
def slotD : Tok := .slot "det".toList

def sp : Tok := .plain [' ']

/-- Token decompositions of the five highlight structures: the part before
the literal segment holding the phrase, the literal context `u`/`v` around
the phrase, and the part after it (ending in the closing `"."`). -/
def bgePre : List (List Tok) :=
  [[.plain "The ".toList, slotAdj, sp, slotN],
   [slotD, sp, slotAdj, sp, slotN, sp, slotAdv],
   [],
   [slotPro, sp, slotV],
   []]

def bgeU : List (List Char) :=
  [" ".toList, " ".toList, "When ".toList, " that ".toList,
   "Because of ".toList]

def bgeV : List (List Char) :=
  [" ".toList, " ".toList, ", ".toList, " ".toList, ", ".toList]

def bgeJ : List ℕ := [0, 0, 1, 0, 1]

def bgePost : List (List Tok) :=
  [[slotP, sp, slotD, sp, slotAdj, sp, slotN],
   [slotP, sp, slotD, sp, slotN],
   [slotD, sp, slotAdj, sp, slotN, sp, slotV, sp, slotAdv, sp, slotP, sp,
    slotD, sp, slotN],
   [slotV, sp, slotAdv, sp, slotP, sp, slotD, sp, slotAdj, sp, slotN],
   [slotD, sp, slotAdj, sp, slotN, sp, slotV, sp, slotAdv, sp, slotP, sp,
    slotD, sp, slotN]]

lemma bge_splitOk_the : SplitOk " the ".toList hlBGE := by
  refine ⟨by decide, by decide, by decide, by decide⟩

lemma bge_splitOk_a : SplitOk " a ".toList hlBGE := by
  refine ⟨by decide, by decide, by decide, by decide⟩

lemma fill_hlStructure_spec :
    ∀ st ∈ hlStructures hlBGE, ∀ (g : Rng) (spPos : Option (List Char)),
      ∃ a b g', fillSentenceStructure st none spPos g =
          (a ++ (hlBGE ++ b), g') ∧
        50 ≤ (a ++ (hlBGE ++ b)).length ∧
        (80 < (a ++ (hlBGE ++ b)).length →
          ∃ q, a.length + hlBGE.length ≤ q ∧ q ≤ 80 ∧
            (a ++ (hlBGE ++ b)).get? q = some ' ') := by
  intro st hst g spPos
  have hidx : ∃ k, k < 5 ∧
      st = flattenToks ((bgePre.getD k []) ++
        .plain ((bgeU.getD k []) ++ (hlBGE ++ (bgeV.getD k []))) ::
        ((bgePost.getD k []) ++ [.plain ['.']])) := by
    fin_cases hst
    · exact ⟨0, by omega, by decide⟩
    · exact ⟨1, by omega, by decide⟩
    · exact ⟨2, by omega, by decide⟩
    · exact ⟨3, by omega, by decide⟩
    · exact ⟨4, by omega, by decide⟩
  obtain ⟨k, hk, rfl⟩ := hidx
  have hcases : k = 0 ∨ k = 1 ∨ k = 2 ∨ k = 3 ∨ k = 4 := by omega
  rcases hcases with rfl | rfl | rfl | rfl | rfl
  · exact fill_hl_template _ _ _ _ _ 0 bge_splitOk_the bge_splitOk_a
      (by decide) (keys_of_bool (by decide)) (by decide) (by decide)
      (by decide) (by decide) g spPos
  · exact fill_hl_template _ _ _ _ _ 0 bge_splitOk_the bge_splitOk_a
      (by decide) (keys_of_bool (by decide)) (by decide) (by decide)
      (by decide) (by decide) g spPos
  · exact fill_hl_template _ _ _ _ _ 1 bge_splitOk_the bge_splitOk_a
      (by decide) (keys_of_bool (by decide)) (by decide) (by decide)
      (by decide) (by decide) g spPos
  · exact fill_hl_template _ _ _ _ _ 0 bge_splitOk_the bge_splitOk_a
      (by decide) (keys_of_bool (by decide)) (by decide) (by decide)
      (by decide) (by decide) g spPos
  · exact fill_hl_template _ _ _ _ _ 1 bge_splitOk_the bge_splitOk_a
      (by decide) (keys_of_bool (by decide)) (by decide) (by decide)
      (by decide) (by decide) g spPos

lemma hlRetryMulti_done {hl : List Char} {a : ℕ} {g : Rng} {s : List Char}
    (h : ¬ s.length < 50) : hlRetryMulti hl (a + 1) g s = (s, g) := by
  rw [hlRetryMulti, if_neg h]

lemma genHlLine_spec (g : Rng) :
    ∃ a b g', genHlLine hlBGE g = (a ++ (hlBGE ++ b), g') ∧
      50 ≤ (a ++ (hlBGE ++ b)).length ∧
      (80 < (a ++ (hlBGE ++ b)).length →
        ∃ q, a.length + hlBGE.length ≤ q ∧ q ≤ 80 ∧
          (a ++ (hlBGE ++ b)).get? q = some ' ') := by
  have hmem : (g.choice (hlStructures hlBGE)).1 ∈ hlStructures hlBGE :=
    choice_fst_mem (by decide) g
  obtain ⟨a, b, g₂, heqf, hlen, hsp⟩ :=
    fill_hlStructure_spec _ hmem ((g.choice (hlStructures hlBGE)).2) none
  refine ⟨a, b, g₂, ?_, hlen, hsp⟩
  have hbody : genHlLine hlBGE g =
      (match fillSentenceStructure ((g.choice (hlStructures hlBGE)).1) none
          none ((g.choice (hlStructures hlBGE)).2) with
        | (s, g2) => hlRetryMulti hlBGE 5 g2 s) := by
    rw [genHlLine, if_pos (by decide)]
  rw [hbody, heqf]
  exact hlRetryMulti_done (by omega)

lemma findCutPoint_le (line : List Char) : ∀ n, findCutPoint line n ≤ n := by
  intro n
  induction n with
  | zero => simp [findCutPoint]
  | succ k ih =>
      rw [findCutPoint]
      by_cases h : line.get? (k + 1) = some ' '
      · rw [if_pos h]
      · rw [if_neg h]
        omega

lemma findCutPoint_ge {line : List Char} {q : ℕ}
    (hq : line.get? q = some ' ') :
    ∀ n, q ≤ n → q ≤ findCutPoint line n := by
  intro n
  induction n with
  | zero => intro h; simpa [findCutPoint] using h
  | succ k ih =>
      intro hqn
      rw [findCutPoint]
      by_cases h : line.get? (k + 1) = some ' '
      · rw [if_pos h]; omega
      · rw [if_neg h]
        rcases Nat.eq_or_lt_of_le hqn with heq | hlt
        · exact absurd (heq ▸ hq) h
        · exact ih (by omega)

lemma isSubstr_of_shape (hl a b : List Char) :
    isSubstr hl (a ++ (hl ++ b)) = true :=
  (isSubstr_infix_iff _ _).mpr ⟨a, b, by simp⟩

lemma validateLine_keeps {hl a b : List Char} (g : Rng)
    (hlen : 50 ≤ (a ++ (hl ++ b)).length)
    (hsp : 80 < (a ++ (hl ++ b)).length →
      ∃ q, a.length + hl.length ≤ q ∧ q ≤ 80 ∧
        (a ++ (hl ++ b)).get? q = some ' ') :
    isSubstr hl (validateLine g (a ++ (hl ++ b))).1 = true := by
  by_cases h80 : 80 < (a ++ (hl ++ b)).length
  · obtain ⟨q, hq1, hq2, hq3⟩ := hsp h80
    set cp := findCutPoint (a ++ (hl ++ b)) 80 with hcp
    have hcpge : q ≤ cp := findCutPoint_ge hq3 80 hq2
    have hcple : cp ≤ 80 := findCutPoint_le _ 80
    by_cases hc50 : 50 < cp
    · have htake : (a ++ (hl ++ b)).take cp =
          (a ++ hl) ++ b.take (cp - (a ++ hl).length) := by
        rw [← List.append_assoc, List.take_append_eq_append_take,
          List.take_all_of_le (by simp only [List.length_append]; omega)]
      have hres : validateLine g (a ++ (hl ++ b)) =
          ((a ++ (hl ++ b)).take cp ++ ['.'], g) := by
        unfold validateLine
        simp only [← hcp, if_pos h80, if_pos hc50]
        rw [if_neg (by
          simp only [List.length_append, List.length_take,
            List.length_cons, List.length_nil]
          simp only [List.length_append] at h80
          omega)]
      rw [hres, htake]
      exact (isSubstr_infix_iff _ _).mpr
        ⟨a, b.take (cp - (a ++ hl).length) ++ ['.'], by simp⟩
    · have hres : validateLine g (a ++ (hl ++ b)) =
          (a ++ (hl ++ b), g) := by
        unfold validateLine
        simp only [← hcp, if_pos h80, if_neg hc50]
        rw [if_neg (by omega)]
      rw [hres]
      exact isSubstr_of_shape hl a b
  · have hres : validateLine g (a ++ (hl ++ b)) = (a ++ (hl ++ b), g) := by
      unfold validateLine
      simp only [if_neg h80]
      rw [if_neg (by omega)]
    rw [hres]
    exact isSubstr_of_shape hl a b

lemma buildLinesGo_len (hl : List Char) (hlIdx : ℕ) :
    ∀ (n i : ℕ) (g : Rng), ((buildLinesGo hl hlIdx i n g).1).length = n := by
  intro n
  induction n with
  | zero => intro i g; rfl
  | succ m ih =>
      intro i g
      rw [buildLinesGo]
      cases hline : (if i = hlIdx then genHlLine hl g
        else
          let (s, g') := genNormalLine g
          normalRetry 5 g' s) with
      | mk line g1 =>
          simp only [List.length_cons]
          rw [ih]

lemma buildLinesGo_get (hl : List Char) (hlIdx : ℕ) :
    ∀ (n i j : ℕ) (g : Rng), j < n → i + j = hlIdx →
      ∃ gj, ((buildLinesGo hl hlIdx i n g).1).get? j =
        some (genHlLine hl gj).1 := by
  intro n
  induction n with
  | zero => intro i j g h; omega
  | succ m ih =>
      intro i j g hj hij
      rw [buildLinesGo]
      cases j with
      | zero =>
          have hi : i = hlIdx := by omega
          rw [if_pos hi]
          cases hline : genHlLine hl g with
          | mk line g1 =>
              refine ⟨g, ?_⟩
              simp [hline]
      | succ j' =>
          have hi : ¬ i = hlIdx := by omega
          rw [if_neg hi]
          cases hnorm : (let (s, g') := genNormalLine g;
              normalRetry 5 g' s) with
          | mk line g1 =>
              obtain ⟨gj, hgj⟩ := ih (i + 1) j' g1 (by omega) (by omega)
              exact ⟨gj, by simpa using hgj⟩

lemma validateLines_len : ∀ (ls : List (List Char)) (g : Rng),
    ((validateLines g ls).1).length = ls.length := by
  intro ls
  induction ls with
  | nil => intro g; rfl
  | cons l rest ih =>
      intro g
      rw [validateLines]
      cases hv : validateLine g l with
      | mk l' g' =>
          simp only [List.length_cons]
          rw [ih]

lemma validateLines_get : ∀ (ls : List (List Char)) (g : Rng) (j : ℕ)
    (l : List Char), ls.get? j = some l →
      ∃ gj, ((validateLines g ls).1).get? j = some (validateLine gj l).1 := by
  intro ls
  induction ls with
  | nil => intro g j l h; cases h
  | cons l0 rest ih =>
      intro g j l hget
      rw [validateLines]
      cases hv : validateLine g l0 with
      | mk l' g' =>
          cases j with
          | zero =>
              have : l0 = l := by simpa using hget
              subst this
              exact ⟨g, by simp [hv]⟩
          | succ j' =>
              obtain ⟨gj, hgj⟩ := ih g' j' l (by simpa using hget)
              exact ⟨gj, by simpa using hgj⟩

/-- The four intermediate values of a `generate_random_text_snippet` run,
as projections (used to reason about the run equationally). -/
def grtsNum (minL maxL : ℕ) (g : Rng) : ℕ :=
  (g.randint (max 1 minL) (max minL maxL)).1

def grtsG1 (minL maxL : ℕ) (g : Rng) : Rng :=
  (g.randint (max 1 minL) (max minL maxL)).2

def grtsIdx (minL maxL : ℕ) (g : Rng) : ℕ :=
  ((grtsG1 minL maxL g).randint 0 (grtsNum minL maxL g - 1)).1

def grtsG2 (minL maxL : ℕ) (g : Rng) : Rng :=
  ((grtsG1 minL maxL g).randint 0 (grtsNum minL maxL g - 1)).2

def grtsBuild (hl : List Char) (minL maxL : ℕ) (g : Rng) :
    List (List Char) × Rng :=
  buildLinesGo hl (grtsIdx minL maxL g) 0 (grtsNum minL maxL g)
    (grtsG2 minL maxL g)

def grtsFinal (hl : List Char) (minL maxL : ℕ) (g : Rng) :
    List (List Char) × Rng :=
  validateLines (grtsBuild hl minL maxL g).2 (grtsBuild hl minL maxL g).1

lemma generateRandomTextSnippet_eq (hl : List Char) (minL maxL : ℕ)
    (g : Rng) :
    generateRandomTextSnippet hl minL maxL g =
      (if (grtsFinal hl minL maxL g).1.length < minL then
        (none, (grtsFinal hl minL maxL g).2)
      else
        (some ((grtsFinal hl minL maxL g).1, grtsIdx minL maxL g),
          (grtsFinal hl minL maxL g).2)) := rfl

lemma grtsNum_bounds (minL maxL : ℕ) (g : Rng) (h1 : 1 ≤ minL)
    (h2 : minL ≤ maxL) :
    minL ≤ grtsNum minL maxL g ∧ grtsNum minL maxL g ≤ maxL := by
  have h0 : grtsNum minL maxL g =
      max 1 minL + g.stream g.pos % (max minL maxL - max 1 minL + 1) := rfl
  rw [max_eq_right h1, max_eq_right h2] at h0
  have hmod : g.stream g.pos % (maxL - minL + 1) < maxL - minL + 1 :=
    Nat.mod_lt _ (by omega)
  omega

lemma grtsIdx_lt (minL maxL : ℕ) (g : Rng)
    (h : 1 ≤ grtsNum minL maxL g) :
    grtsIdx minL maxL g < grtsNum minL maxL g := by
  have h0 : grtsIdx minL maxL g = 0 +
      (grtsG1 minL maxL g).stream (grtsG1 minL maxL g).pos %
        (grtsNum minL maxL g - 1 - 0 + 1) := rfl
  have hmod : (grtsG1 minL maxL g).stream (grtsG1 minL maxL g).pos %
      (grtsNum minL maxL g - 1 - 0 + 1) <
      grtsNum minL maxL g - 1 - 0 + 1 := Nat.mod_lt _ (by omega)
  omega

/-- C6: with the phrase "Better Gaming Experience" and `min_lines = 7`,
`max_lines = 12`, the procedural generator always succeeds with between 7
and 12 lines, and the line at the returned highlight index contains the
phrase verbatim. -/
theorem c6_better_gaming_scenario (g : Rng) :
    ∃ lines idx g',
      generateRandomTextSnippet hlBGE 7 12 g = ((some (lines, idx)), g') ∧
      7 ≤ lines.length ∧ lines.length ≤ 12 ∧ idx < lines.length ∧
      isSubstr hlBGE (lines.getD idx []) = true := by
  have hnum := grtsNum_bounds 7 12 g (by omega) (by omega)
  have hidx := grtsIdx_lt 7 12 g (by omega)
  have hblen : (grtsBuild hlBGE 7 12 g).1.length = grtsNum 7 12 g :=
    buildLinesGo_len hlBGE (grtsIdx 7 12 g) (grtsNum 7 12 g) 0
      (grtsG2 7 12 g)
  obtain ⟨gj, hget⟩ := buildLinesGo_get hlBGE (grtsIdx 7 12 g)
    (grtsNum 7 12 g) 0 (grtsIdx 7 12 g) (grtsG2 7 12 g) hidx (by omega)
  obtain ⟨a, b, g'', hgen, hlen, hsp⟩ := genHlLine_spec gj
  obtain ⟨gk, hvget⟩ := validateLines_get (grtsBuild hlBGE 7 12 g).1
    (grtsBuild hlBGE 7 12 g).2 (grtsIdx 7 12 g) _ hget
  have hflen : (grtsFinal hlBGE 7 12 g).1.length = grtsNum 7 12 g := by
    unfold grtsFinal
    rw [validateLines_len, hblen]
  have hkeep : isSubstr hlBGE
      ((validateLine gk (genHlLine hlBGE gj).1).1) = true := by
    rw [hgen]
    exact validateLine_keeps gk hlen hsp
  have hgetd : (grtsFinal hlBGE 7 12 g).1.getD (grtsIdx 7 12 g) [] =
      (validateLine gk (genHlLine hlBGE gj).1).1 := by
    rw [List.getD_eq_getElem?_getD, ← List.get?_eq_getElem?]
    rw [show (grtsFinal hlBGE 7 12 g).1 =
      (validateLines (grtsBuild hlBGE 7 12 g).2
        (grtsBuild hlBGE 7 12 g).1).1 from rfl, hvget]
    rfl
  refine ⟨(grtsFinal hlBGE 7 12 g).1, grtsIdx 7 12 g,
    (grtsFinal hlBGE 7 12 g).2, ?_, by omega, by omega, by omega, ?_⟩
  · rw [generateRandomTextSnippet_eq, if_neg (by omega)]
  · rw [hgetd]
    exact hkeep

lemma findHlIdx_spec {hl : List Char} :
    ∀ {ls : List (List Char)} {i : ℕ}, findHlIdx hl ls = some i →
      i < ls.length ∧ isSubstr hl (ls.getD i []) = true := by
  intro ls
  induction ls with
  | nil => intro i h; cases h
  | cons l rest ih =>
      intro i h
      rw [findHlIdx] at h
      by_cases hs : isSubstr hl l = true
      · rw [if_pos hs] at h
        have : i = 0 := by
          injection h with h0
          omega
        subst this
        exact ⟨by simp, by simpa using hs⟩
      · rw [if_neg hs] at h
        cases hfi : findHlIdx hl rest with
        | none => rw [hfi] at h; cases h
        | some i' =>
            rw [hfi, Option.map_some'] at h
            have hii : i = i' + 1 := by
              injection h with h0
              omega
            subst hii
            obtain ⟨h1, h2⟩ := ih hfi
            exact ⟨by simpa using h1, by simpa using h2⟩

/-- A concrete random stream for one `generate_random_text_snippet` run with
the single-word phrase "blorp" and `min_lines = max_lines = 1`: structure
index 2 (which has no (adj) slot) with `special_pos = 'adj'`, so the special
word is never placed. -/
def c5Stream : ℕ → ℕ :=
  fun n => [0, 0, 2, 2, 20, 20, 30, 30, 29, 29, 24, 30, 27, 27].getD n 0

def c5Line : List Char :=
  ("themselves absolutely becomes that another government" ++
    " becomes absolutely.").toList

set_option maxRecDepth 10000 in
/-- C5 counterexample: a successful procedural run whose returned snippet
contains the highlight phrase in none of its lines (the claim asserts
exactly one). -/
theorem c5_line_invariants_counterexample :
    (generateRandomTextSnippet "blorp".toList 1 1 ⟨c5Stream, 0⟩).1 =
      some ([c5Line], 0) ∧
    isSubstr "blorp".toList c5Line = false := by decide

/-- C5 amended: the AI validation pass guarantees the band `[40, 100]`,
spaces, punctuation, at least five words, and that the recomputed highlight
index is in range with its line containing the phrase; the procedural
generator guarantees the line count lies in `[min_lines, max_lines]` and
the returned index is in range (its per-line band `[50, 80]` and unique
phrase occurrence do not hold in general). -/
theorem c5_line_invariants_amended :
    (∀ (hl : List Char) (minLines : ℕ)
       (res : Option (List (List Char) × ℤ))
       (lines : List (List Char)) (i : ℕ),
       processAiValidation hl minLines res = some (lines, i) →
       minLines ≤ lines.length ∧ i < lines.length ∧
       isSubstr hl (lines.getD i []) = true ∧
       ∀ l ∈ lines, 40 ≤ l.length ∧ l.length ≤ 100 ∧
         isSubstr [' '] l = true ∧ 5 ≤ (splitWs l).length) ∧
    (∀ (hl : List Char) (minL maxL : ℕ) (g : Rng)
       (lines : List (List Char)) (idx : ℕ) (g' : Rng),
       1 ≤ minL → minL ≤ maxL →
       generateRandomTextSnippet hl minL maxL g = (some (lines, idx), g') →
       minL ≤ lines.length ∧ lines.length ≤ maxL ∧ idx < lines.length) := by
  constructor
  · intro hl minLines res lines i h
    cases res with
    | none => cases h
    | some p =>
        obtain ⟨ls, hlIdx⟩ := p
        rw [processAiValidation] at h
        by_cases h1 : ls ≠ [] ∧ hlIdx ≠ -1
        · rw [if_pos h1] at h
          by_cases h2 : ls.filter aiLineValid ≠ [] ∧
              minLines ≤ (ls.filter aiLineValid).length
          · rw [if_pos h2] at h
            cases hfi : findHlIdx hl (ls.filter aiLineValid) with
            | none => rw [hfi] at h; cases h
            | some i' =>
                rw [hfi] at h
                have hli : lines = ls.filter aiLineValid ∧ i = i' := by
                  injection h with h0
                  injection h0 with ha hb
                  exact ⟨ha.symm, hb.symm⟩
                obtain ⟨rfl, rfl⟩ := hli
                obtain ⟨hilt, hisub⟩ := findHlIdx_spec hfi
                refine ⟨h2.2, hilt, hisub, ?_⟩
                intro l hml
                have hv := List.of_mem_filter hml
                simp only [aiLineValid, Bool.and_eq_true,
                  decide_eq_true_eq] at hv
                exact ⟨hv.1.1.1.1.1.1.1.1, hv.1.1.1.1.1.1.1.2,
                  hv.1.1.1.1.1.1.2, hv.2⟩
          · rw [if_neg h2] at h
            cases h
        · rw [if_neg h1] at h
          cases h
  · intro hl minL maxL g lines idx g' h1 h2 h
    rw [generateRandomTextSnippet_eq] at h
    by_cases hlt : (grtsFinal hl minL maxL g).1.length < minL
    · rw [if_pos hlt] at h
      rw [Prod.mk.injEq] at h
      cases h.1
    · rw [if_neg hlt] at h
      rw [Prod.mk.injEq] at h
      have h0 := h.1
      injection h0 with h0
      rw [Prod.mk.injEq] at h0
      obtain ⟨hlines, hidx⟩ := h0
      subst hlines
      subst hidx
      have hflen : (grtsFinal hl minL maxL g).1.length =
          grtsNum minL maxL g := by
        unfold grtsFinal grtsBuild
        rw [validateLines_len, buildLinesGo_len]
      have hnum := grtsNum_bounds minL maxL g h1 h2
      have hidxlt := grtsIdx_lt minL maxL g (by omega)
      exact ⟨by omega, by omega, by omega⟩

def c5wLine : List Char :=
  "well hi there, this line is long enough to pass validation.".toList

set_option maxRecDepth 10000 in
theorem c5_line_invariants_amended_witness :
    ((1 ≤ ([c5wLine] : List (List Char)).length ∧
      0 < ([c5wLine] : List (List Char)).length ∧
      isSubstr "hi there".toList (([c5wLine] : List (List Char)).getD 0 [])
        = true ∧
      ∀ l ∈ ([c5wLine] : List (List Char)), 40 ≤ l.length ∧
        l.length ≤ 100 ∧ isSubstr [' '] l = true ∧
        5 ≤ (splitWs l).length) ∧
     (1 ≤ ([c5Line] : List (List Char)).length ∧
      ([c5Line] : List (List Char)).length ≤ 1 ∧
      0 < ([c5Line] : List (List Char)).length)) :=
  ⟨c5_line_invariants_amended.1 "hi there".toList 1 (some ([c5wLine], 0))
      [c5wLine] 0 (by decide),
   c5_line_invariants_amended.2 "blorp".toList 1 1 ⟨c5Stream, 0⟩ [c5Line] 0
      (generateRandomTextSnippet "blorp".toList 1 1 ⟨c5Stream, 0⟩).2
      (by decide) (by decide) (Prod.ext (by decide) rfl)⟩
